import Mathlib

/-!
Verification of the binary search tree engine of this repository.

The engine lives in `src/sorted_dict/tree.py` (a second, nearly identical
copy lives in `src/dict_tree/tree.py`); the `SortedDict` adapter lives in
`src/sorted_dict/sorted_dict.py`.

Embedding notes.  The Python code mutates a pointer structure in place:
each `Node` dataclass holds `key`, `value`, `parent`, `left`, `right`, and a
`Tree` holds an optional `root`.  Every reachable state of that structure is
a finite binary tree (each node has exactly one incoming child edge), so we
embed it as an inductive tree.  `None` becomes the constructor `Node.nil`.
The child-to-parent back-reference cannot be a field of an inductive value;
since the engine never creates two nodes with the same key, a parent node is
identified by its key, and the `parent` field is embedded as `Option Int`
holding the parent's key.  The embedded operations write this field at
exactly the points the Python writes `*.parent`:

  * `insert` creates `Node(key, value, parent=y)` where `y` is the node
    whose `nil` child slot the walk reached;
  * `_transplant(tree, u, v)` performs `v.parent = u.parent` when `v` is
    present, rendered here by `setParent v u.parent`;
  * `_delete_node` performs `y.right.parent = y` and `y.left.parent = y`,
    rendered by `setParent _ (some yk)` at the same points.

The in-place loops of `insert` and `_search_node`, which descend one child
per iteration, become structural recursion on the same child; the in-place
surgery of `_delete_node`, which splices the in-order successor `y` out of
the right subtree and moves it to the deleted node's position, becomes a
function that removes the leftmost entry of the right subtree and rebuilds
the node at the deleted position from `y`'s key and value.  Exceptions
(`KeyError`, `ValueError`) become `Except Err`; `AssertionError`, a distinct
fatal kind, is modelled separately in the heap model at the end of the file.
-/

namespace SortedDict

/-- Embedding of the `Node` dataclass of `src/sorted_dict/tree.py`: `key`,
`value`, `parent` (the parent node's key, see the header comment), `left`,
`right`.  `nil` embeds Python `None`. -/
inductive Node (α : Type) where
  | nil : Node α
  | node (key : Int) (value : α) (parent : Option Int)
      (left : Node α) (right : Node α)
deriving DecidableEq

/-- Embedding of the `Tree` dataclass: a single optional root. -/
structure Tree (α : Type) where
  root : Node α
deriving DecidableEq

/-- The two user-facing failure kinds of the engine (§7 of the spec):
`keyNotFound` embeds the `KeyError` raised by `_search_node` (both for an
empty tree and for an absent key), `emptyTree` embeds the `ValueError`
raised by `minimum`/`maximum` on an empty tree. -/
inductive Err where
  | keyNotFound
  | emptyTree
deriving DecidableEq

namespace Node

/-- In-order list of `(key, value)` pairs of a subtree: the trace of calls
`func(node)` made by `_inorder_walk(node, func)`, projected to the data the
visitor can read. -/
def inorderPairs {α : Type} : Node α → List (Int × α)
  | .nil => []
  | .node k v _ l r => inorderPairs l ++ (k, v) :: inorderPairs r

/-- In-order list of keys of a subtree. -/
def keysList {α : Type} (t : Node α) : List Int :=
  t.inorderPairs.map Prod.fst

/-- Number of nodes of a subtree. -/
def size {α : Type} : Node α → Nat
  | .nil => 0
  | .node _ _ _ l r => size l + size r + 1

/-- Embedding of the write `node.parent = p` performed by `_transplant`
(on `node2`) and by `_delete_node` (on `y.right` and `y.left`): it updates
the root node's `parent` field and nothing else.  On `nil` it is the
identity, matching `if node2 is not None` guarding the write. -/
def setParent {α : Type} : Node α → Option Int → Node α
  | .nil, _ => .nil
  | .node k v _ l r, p => .node k v p l r

end Node

/-- Embedding of the loop of `insert(tree, key, value)`: `x` descends from
`t` comparing `key` to `x.key`; `y` (here the argument `yk`, the key of the
last visited node, `none` above the root) tracks the prospective parent.
Reaching `None` links `Node(key=key, value=value, parent=y)` into the empty
slot; reaching an equal key overwrites that node's `value` in place. -/
def insertGo {α : Type} : Node α → Int → α → Option Int → Node α
  | .nil, k, v, yk => .node k v yk .nil .nil
  | .node k' v' p l r, k, v, _ =>
    if k < k' then .node k' v' p (insertGo l k v (some k')) r
    else if k > k' then .node k' v' p l (insertGo r k v (some k'))
    else .node k' v p l r

/-- Embedding of `insert(tree, key, value)`.  The descent starts at the root
with `y = None`; if the root is `None` the new node becomes the root with an
absent parent. -/
def insert {α : Type} (t : Tree α) (k : Int) (v : α) : Tree α :=
  ⟨insertGo t.root k v none⟩

/-- Embedding of the loop of `_search_node`: descend comparing the target
key, return the node on equality, `none` when an absent child is reached. -/
def findNode {α : Type} : Node α → Int → Option (Node α)
  | .nil, _ => none
  | .node k' v' p l r, k =>
    if k < k' then findNode l k
    else if k > k' then findNode r k
    else some (.node k' v' p l r)

/-- Embedding of `_search_node(tree, key)`: an empty tree raises `KeyError`
("Empty dictionary"), an unsuccessful walk raises `KeyError` ("not found");
both are the `keyNotFound` failure kind. -/
def searchNode {α : Type} (t : Tree α) (k : Int) : Except Err (Node α) :=
  match t.root with
  | .nil => .error .keyNotFound
  | .node k' v' p l r =>
    match findNode (.node k' v' p l r) k with
    | some n => .ok n
    | none => .error .keyNotFound

/-- Embedding of `search(tree, key)`: `_search_node` followed by projection
of `node.value`. -/
def search {α : Type} (t : Tree α) (k : Int) : Except Err α := do
  let n ← searchNode t k
  match n with
  | .nil => .error .keyNotFound
  | .node _ v _ _ _ => pure v

/-- Embedding of `_minimum_node(node)`: follow `left` children until none
remain; `none` for an absent input. -/
def minimumNode {α : Type} : Node α → Option (Node α)
  | .nil => none
  | .node k v p .nil r => some (.node k v p .nil r)
  | .node _ _ _ (.node lk lv lp ll lr) _ => minimumNode (.node lk lv lp ll lr)

/-- Embedding of `_maximum_node(node)`: follow `right` children until none
remain. -/
def maximumNode {α : Type} : Node α → Option (Node α)
  | .nil => none
  | .node k v p l .nil => some (.node k v p l .nil)
  | .node _ _ _ _ (.node rk rv rp rl rr) => maximumNode (.node rk rv rp rl rr)

/-- Embedding of `minimum(tree)`: `ValueError` ("No minimum in empty tree")
on an empty root, otherwise the key of `_minimum_node(tree.root)`. -/
def minimum {α : Type} (t : Tree α) : Except Err Int :=
  match t.root with
  | .nil => .error .emptyTree
  | n =>
    match minimumNode n with
    | some (.node k _ _ _ _) => .ok k
    | _ => .error .emptyTree

/-- Embedding of `maximum(tree)`: `ValueError` on an empty root, otherwise
the key of `_maximum_node(tree.root)`. -/
def maximum {α : Type} (t : Tree α) : Except Err Int :=
  match t.root with
  | .nil => .error .emptyTree
  | n =>
    match maximumNode n with
    | some (.node k _ _ _ _) => .ok k
    | _ => .error .emptyTree

/-- Embedding of the splice performed by `_delete_node` on the in-order
successor: `y = _minimum_node(node.right)` is the leftmost node of the
subtree; `_transplant(tree, y, y.right)` replaces it by its right child,
whose `parent` is set to `y.parent` (here the stored parent key `p` of the
leftmost node).  The result is `((y.key, y.value), subtree with y spliced
out)`.  When `y` is the subtree root itself (`y.parent == node` in the
Python) no splice happens there; the uniform rendering below performs the
same parent writes, since `y.right` keeps a parent field that the later
`y.right.parent = y` write overwrites in both branches. -/
def delMin {α : Type} : Node α → Option ((Int × α) × Node α)
  | .nil => none
  | .node k v p .nil r => some ((k, v), r.setParent p)
  | .node k v p (.node lk lv lp ll lr) r =>
    match delMin (.node lk lv lp ll lr) with
    | some (kv, l') => some (kv, .node k v p l' r)
    | none => none

/-- Embedding of `_delete_node(tree, node)` applied to the root of the given
subtree, whose stored parent key is that root's `parent` field.  Case 1
(`node.left is None`): `_transplant(tree, node, node.right)` — the right
child replaces the node and its `parent` becomes `node.parent`.  Case 2
(`node.right is None`): symmetric.  Case 3: `y`, the in-order successor, is
spliced out of the right subtree (`delMin`), takes over the deleted node's
key position and parent, and adopts the remaining left and right subtrees
with their `parent` fields rewritten to `y` (`y.right.parent = y`,
`y.left.parent = y`). -/
def deleteRoot {α : Type} : Node α → Node α
  | .nil => .nil
  | .node _ _ p .nil r => r.setParent p
  | .node _ _ p l .nil => l.setParent p
  | .node _ _ p l r =>
    match delMin r with
    | some ((yk, yv), r') =>
      .node yk yv p (l.setParent (some yk)) (r'.setParent (some yk))
    | none => .nil

/-- Locates the node with key `k` (the node `_search_node` would return) and
applies `_delete_node` there; the surrounding structure is untouched.  When
`k` is not on the comparison path the tree is returned unchanged (the
Python never reaches `_delete_node` in that case: `delete` raises first). -/
def deleteKey {α : Type} : Node α → Int → Node α
  | .nil, _ => .nil
  | .node k' v' p l r, k =>
    if k < k' then .node k' v' p (deleteKey l k) r
    else if k > k' then .node k' v' p l (deleteKey r k)
    else deleteRoot (.node k' v' p l r)

/-- Embedding of `delete(tree, key)`: `_search_node` first (its `KeyError`
propagates unchanged, before any mutation), then `_delete_node` on the node
found. -/
def delete {α : Type} (t : Tree α) (k : Int) : Except Err (Tree α) :=
  match searchNode t k with
  | .error e => .error e
  | .ok _ => .ok ⟨deleteKey t.root k⟩

/-- Trace of `walk(tree, func)`: the `(key, value)` pairs passed to `func`,
in visiting order.  `walk` returns immediately on an empty root and
otherwise runs `_inorder_walk(tree.root, func)`. -/
def walk {α : Type} (t : Tree α) : List (Int × α) :=
  match t.root with
  | .nil => []
  | n => n.inorderPairs

/-- Modelled from the spec: `tree.collect`, called by `SortedDict.items_`
in `src/sorted_dict/sorted_dict.py`, is absent from
`src/sorted_dict/tree.py`.  The spec (§6) says `keys()`/`items()` are the
ascending sequences "derived by traversal", so `collect` is the in-order
traversal of the tree collecting `(key, value)` pairs. -/
def collect {α : Type} (t : Tree α) : List (Int × α) :=
  t.root.inorderPairs

/-- `SortedDict.keys()`: the first components of `items()`, which iterates
`tree.collect(self._tree)`. -/
def keys {α : Type} (t : Tree α) : List Int :=
  (collect t).map Prod.fst

/-- `SortedDict.items()`. -/
def items {α : Type} (t : Tree α) : List (Int × α) :=
  collect t

/-- One adapter-level mutation: `sorted_dict[key] = value` or
`del sorted_dict[key]`. -/
inductive Op (α : Type) where
  | ins (k : Int) (v : α)
  | del (k : Int)

/-- Effect of one operation on the tree.  A failed `delete` raises inside
`_search_node` before any mutation, so the tree is unchanged. -/
def applyOp {α : Type} (t : Tree α) : Op α → Tree α
  | .ins k v => insert t k v
  | .del k =>
    match delete t k with
    | .ok t' => t'
    | .error _ => t

/-- The tree reached from the empty tree by a sequence of operations. -/
def applyOps {α : Type} (ops : List (Op α)) : Tree α :=
  ops.foldl applyOp ⟨.nil⟩

/-- The BST invariant on the structure (spec §3): at each node every key in
the left subtree is strictly smaller and every key in the right subtree is
strictly greater than the node's key.  (Strictness makes keys pairwise
distinct; see `SortedDict.bst_keys_sorted`.) -/
def BST {α : Type} : Node α → Prop
  | .nil => True
  | .node k _ _ l r =>
    (∀ x ∈ l.keysList, x < k) ∧ (∀ x ∈ r.keysList, k < x) ∧ BST l ∧ BST r

/-- The parent-link invariant (spec §3): each node's stored `parent` field
is the key of its actual parent (`n.left.parent == n`,
`n.right.parent == n`) and the root's parent is absent. -/
def ParentOk {α : Type} : Node α → Option Int → Prop
  | .nil, _ => True
  | .node k _ p l r, pk => p = pk ∧ ParentOk l (some k) ∧ ParentOk r (some k)

/-- Value stored at key `k`, following the comparison path of
`_search_node`; `none` when the walk reaches an absent child.  This is the
value-level view of `findNode`, used throughout the lemmas. -/
def lookup {α : Type} : Node α → Int → Option α
  | .nil, _ => none
  | .node k' v' _ l r, k =>
    if k < k' then lookup l k
    else if k > k' then lookup r k
    else some v'

/-- The descent loop of `insert` with an explicit fuel bound: each loop
iteration moves `x` to one of its children, so the loop makes at most one
step per node on the descent path.  `none` means the fuel ran out before
the walk finished. -/
def insertFuel {α : Type} : Nat → Node α → Int → α → Option Int → Option (Node α)
  | 0, _, _, _, _ => none
  | _ + 1, .nil, k, v, yk => some (.node k v yk .nil .nil)
  | fuel + 1, .node k' v' p l r, k, v, _ =>
    if k < k' then (insertFuel fuel l k v (some k')).map fun l' => .node k' v' p l' r
    else if k > k' then (insertFuel fuel r k v (some k')).map fun r' => .node k' v' p l r'
    else some (.node k' v p l r)

/-- The tree built by inserting the pairs of `ps` in order into an empty
tree. -/
def buildFromList {α : Type} (ps : List (Int × α)) : Tree α :=
  ps.foldl (fun t p => insert t p.1 p.2) ⟨.nil⟩

/-- The last value written for key `k` in the insertion sequence `ps`
(`none` when `k` does not occur). -/
def lastValue {α : Type} (ps : List (Int × α)) (k : Int) : Option α :=
  ps.foldl (fun acc p => if p.1 = k then some p.2 else acc) none

instance decBST {α : Type} : (t : Node α) → Decidable (BST t)
  | .nil => .isTrue trivial
  | .node k v p l r =>
    letI := decBST l
    letI := decBST r
    decidable_of_iff
      ((∀ x ∈ l.keysList, x < k) ∧ (∀ x ∈ r.keysList, k < x) ∧ BST l ∧ BST r)
      Iff.rfl

instance decParentOk {α : Type} : (t : Node α) → (pk : Option Int) →
    Decidable (ParentOk t pk)
  | .nil, _ => .isTrue trivial
  | .node k v p l r, pk =>
    letI := decParentOk l (some k)
    letI := decParentOk r (some k)
    decidable_of_iff
      (p = pk ∧ ParentOk l (some k) ∧ ParentOk r (some k))
      Iff.rfl

end SortedDict

namespace DictTree

/-!
Embedding of `src/dict_tree/tree.py`, the second copy of the engine.  Its
`Node` and `Tree` dataclasses and its `transplant`, `minimum`, `maximum`,
`delete_node`, `delete`, `search`, `search_node` functions are the same
code as `src/sorted_dict/tree.py` with the leading underscores dropped and
`insert` named `insert_to`; both raise the same `KeyError`, so the error
type `SortedDict.Err` is shared.  The embedding choices are those explained
at the top of the file.
-/

/-- Embedding of the `Node` dataclass of `src/dict_tree/tree.py`. -/
inductive Node (α : Type) where
  | nil : Node α
  | node (key : Int) (value : α) (parent : Option Int)
      (left : Node α) (right : Node α)
deriving DecidableEq

/-- Embedding of the `Tree` dataclass of `src/dict_tree/tree.py`. -/
structure Tree (α : Type) where
  root : Node α
deriving DecidableEq

namespace Node

/-- In-order `(key, value)` pairs, the trace of `_inorder_walk`. -/
def inorderPairs {α : Type} : Node α → List (Int × α)
  | .nil => []
  | .node k v _ l r => inorderPairs l ++ (k, v) :: inorderPairs r

/-- Embedding of the `node.parent = p` writes of `transplant` and
`delete_node`. -/
def setParent {α : Type} : Node α → Option Int → Node α
  | .nil, _ => .nil
  | .node k v _ l r, p => .node k v p l r

end Node

/-- Embedding of the loop of `insert_to(tree, key, value)` (same code as
`sorted_dict`'s `insert`). -/
def insertGo {α : Type} : Node α → Int → α → Option Int → Node α
  | .nil, k, v, yk => .node k v yk .nil .nil
  | .node k' v' p l r, k, v, _ =>
    if k < k' then .node k' v' p (insertGo l k v (some k')) r
    else if k > k' then .node k' v' p l (insertGo r k v (some k'))
    else .node k' v p l r

/-- Embedding of `insert_to(tree, key, value)`. -/
def insert_to {α : Type} (t : Tree α) (k : Int) (v : α) : Tree α :=
  ⟨insertGo t.root k v none⟩

/-- Embedding of the loop of `search_node`. -/
def findNode {α : Type} : Node α → Int → Option (Node α)
  | .nil, _ => none
  | .node k' v' p l r, k =>
    if k < k' then findNode l k
    else if k > k' then findNode r k
    else some (.node k' v' p l r)

/-- Embedding of `search_node(tree, key)`. -/
def search_node {α : Type} (t : Tree α) (k : Int) : Except SortedDict.Err (Node α) :=
  match t.root with
  | .nil => .error .keyNotFound
  | .node k' v' p l r =>
    match findNode (.node k' v' p l r) k with
    | some n => .ok n
    | none => .error .keyNotFound

/-- Embedding of `search(tree, key)`. -/
def search {α : Type} (t : Tree α) (k : Int) : Except SortedDict.Err α := do
  let n ← search_node t k
  match n with
  | .nil => .error .keyNotFound
  | .node _ v _ _ _ => pure v

/-- Embedding of the in-order-successor splice of `delete_node` (which uses
the node-level `minimum` of `dict_tree/tree.py`), as for `sorted_dict`. -/
def delMin {α : Type} : Node α → Option ((Int × α) × Node α)
  | .nil => none
  | .node k v p .nil r => some ((k, v), r.setParent p)
  | .node k v p (.node lk lv lp ll lr) r =>
    match delMin (.node lk lv lp ll lr) with
    | some (kv, l') => some (kv, .node k v p l' r)
    | none => none

/-- Embedding of `delete_node(tree, node)` applied to the root of the given
subtree (same code as `sorted_dict`'s `_delete_node`). -/
def deleteRoot {α : Type} : Node α → Node α
  | .nil => .nil
  | .node _ _ p .nil r => r.setParent p
  | .node _ _ p l .nil => l.setParent p
  | .node _ _ p l r =>
    match delMin r with
    | some ((yk, yv), r') =>
      .node yk yv p (l.setParent (some yk)) (r'.setParent (some yk))
    | none => .nil

/-- `delete_node` applied at the node `search_node` locates. -/
def deleteKey {α : Type} : Node α → Int → Node α
  | .nil, _ => .nil
  | .node k' v' p l r, k =>
    if k < k' then .node k' v' p (deleteKey l k) r
    else if k > k' then .node k' v' p l (deleteKey r k)
    else deleteRoot (.node k' v' p l r)

/-- Embedding of `delete(tree, key)`. -/
def delete {α : Type} (t : Tree α) (k : Int) : Except SortedDict.Err (Tree α) :=
  match search_node t k with
  | .error e => .error e
  | .ok _ => .ok ⟨deleteKey t.root k⟩

/-- Effect of one adapter operation (`TreeDict.__setitem__` /
`__delitem__`) on the tree; a failed delete leaves the tree unchanged. -/
def applyOp {α : Type} (t : Tree α) : SortedDict.Op α → Tree α
  | .ins k v => insert_to t k v
  | .del k =>
    match delete t k with
    | .ok t' => t'
    | .error _ => t

/-- The tree reached from the empty tree by a sequence of operations. -/
def applyOps {α : Type} (ops : List (SortedDict.Op α)) : Tree α :=
  ops.foldl applyOp ⟨.nil⟩

/-- Field-for-field translation between the two engines' node types, used
to compare tree shapes. -/
def toSorted {α : Type} : Node α → SortedDict.Node α
  | .nil => .nil
  | .node k v p l r => .node k v p (toSorted l) (toSorted r)

/-- Translation at the tree level. -/
def toSortedTree {α : Type} (t : Tree α) : SortedDict.Tree α :=
  ⟨toSorted t.root⟩

end DictTree

namespace TransplantHeap

/-!
Pointer-level model of `_transplant(tree, node1, node2)` of
`src/sorted_dict/tree.py` (identical to `transplant` of
`src/dict_tree/tree.py`).  The assertion in its final `else` branch is a
claim about the pointer structure, so this model keeps explicit addresses:
a heap is a finite association of addresses to node records whose `parent`,
`left`, `right` fields hold optional addresses.  The Python comparisons
`node1 == node1.parent.left` compare the very objects linked into the tree
(dataclass equality short-circuits on identity there), so they are embedded
as address equality.  `AssertionError` is a failure kind distinct from the
user-facing `KeyError`/`ValueError` (`SortedDict.Err`); dereferencing an
address that is not in the heap cannot happen in Python and is reported as
the separate `danglingRef` outcome.
-/

/-- A node record in the heap: `key`, `value`, and the three optional
pointer fields of the `Node` dataclass, as addresses. -/
structure NodeRec (α : Type) where
  key : Int
  value : α
  parent : Option Nat
  left : Option Nat
  right : Option Nat
deriving DecidableEq

/-- A heap: the optional root address of the `Tree` dataclass plus the
address-to-record association. -/
structure Heap (α : Type) where
  root : Option Nat
  nodes : List (Nat × NodeRec α)
deriving DecidableEq

/-- Record stored at address `a`, if any. -/
def lookupA {α : Type} (h : Heap α) (a : Nat) : Option (NodeRec α) :=
  (h.nodes.find? fun p => p.1 == a).map Prod.snd

/-- Overwrite the record stored at address `a` (an in-place field update in
Python). -/
def setA {α : Type} (h : Heap α) (a : Nat) (r : NodeRec α) : Heap α :=
  ⟨h.root, h.nodes.map fun p => if p.1 = a then (a, r) else p⟩

/-- Set the root pointer (`tree.root = node2`). -/
def setRoot {α : Type} (h : Heap α) (v : Option Nat) : Heap α :=
  ⟨v, h.nodes⟩

/-- Failure kinds of the transplant model: `assertionError` embeds the
`raise AssertionError(...)` branch (fatal, not a `SortedDict.Err`);
`danglingRef` marks a dereference of an absent address, impossible in the
Python source. -/
inductive TErr where
  | assertionError
  | danglingRef
deriving DecidableEq

/-- The `if`/`elif`/`else` chain of `_transplant(tree, node1, node2)`: look
at `node1.parent`; if absent, `tree.root = node2`; else if `node1` is the
parent's left child, relink `parent.left = node2`; else if the right child,
`parent.right = node2`; otherwise raise `AssertionError`. -/
def relink {α : Type} (h : Heap α) (u : Nat) (ur : NodeRec α)
    (v : Option Nat) : Except TErr (Heap α) :=
  match ur.parent with
  | none => .ok (setRoot h v)
  | some pa =>
    match lookupA h pa with
    | none => .error .danglingRef
    | some pr =>
      if pr.left = some u then .ok (setA h pa { pr with left := v })
      else if pr.right = some u then .ok (setA h pa { pr with right := v })
      else .error .assertionError

/-- Embedding of `_transplant(tree, node1, node2)`: the `relink` chain,
then, if `node2` is present, `node2.parent = node1.parent`. -/
def transplantH {α : Type} (h : Heap α) (u : Nat) (v : Option Nat) :
    Except TErr (Heap α) :=
  match lookupA h u with
  | none => .error .danglingRef
  | some ur =>
    match relink h u ur v with
    | .error e => .error e
    | .ok h1 =>
      match v with
      | none => .ok h1
      | some va =>
        match lookupA h1 va with
        | none => .error .danglingRef
        | some vr => .ok (setA h1 va { vr with parent := ur.parent })

/-- The parent-link half of the structural invariant (spec §3) at the heap
level: every stored `parent` pointer leads to a record that points back at
its child through `left` or `right`.  Stated as an executable check over
the heap's entries. -/
def parentLinkOk {α : Type} (h : Heap α) : Bool :=
  h.nodes.all fun q =>
    match q.2.parent with
    | none => true
    | some pa =>
      match lookupA h pa with
      | none => false
      | some pr => pr.left == some q.1 || pr.right == some q.1

end TransplantHeap

namespace SortedDict

/-! Basic structural lemmas. -/

@[simp]
theorem inorderPairs_nil {α : Type} : (Node.nil : Node α).inorderPairs = [] := rfl

@[simp]
theorem inorderPairs_node {α : Type} (k : Int) (v : α) (p : Option Int)
    (l r : Node α) :
    (Node.node k v p l r).inorderPairs = l.inorderPairs ++ (k, v) :: r.inorderPairs := rfl

@[simp]
theorem keysList_nil {α : Type} : (Node.nil : Node α).keysList = [] := rfl

@[simp]
theorem keysList_node {α : Type} (k : Int) (v : α) (p : Option Int)
    (l r : Node α) :
    (Node.node k v p l r).keysList = l.keysList ++ k :: r.keysList := by
  simp [Node.keysList]

@[simp]
theorem setParent_nil {α : Type} (p : Option Int) :
    (Node.nil : Node α).setParent p = .nil := rfl

@[simp]
theorem setParent_node {α : Type} (k : Int) (v : α) (q p : Option Int)
    (l r : Node α) :
    (Node.node k v q l r).setParent p = .node k v p l r := rfl

@[simp]
theorem inorderPairs_setParent {α : Type} (t : Node α) (p : Option Int) :
    (t.setParent p).inorderPairs = t.inorderPairs := by
  cases t <;> rfl

@[simp]
theorem keysList_setParent {α : Type} (t : Node α) (p : Option Int) :
    (t.setParent p).keysList = t.keysList := by
  simp [Node.keysList]

theorem bst_setParent {α : Type} {t : Node α} (p : Option Int) (h : BST t) :
    BST (t.setParent p) := by
  cases t with
  | nil => trivial
  | node k v q l r => exact h

theorem parentOk_setParent {α : Type} {t : Node α} {q : Option Int}
    (p : Option Int) (h : ParentOk t q) : ParentOk (t.setParent p) p := by
  cases t with
  | nil => trivial
  | node k v q' l r => exact ⟨rfl, h.2.1, h.2.2⟩

theorem size_eq_length_keysList {α : Type} (t : Node α) :
    t.size = t.keysList.length := by
  induction t with
  | nil => rfl
  | node k v p l r ihl ihr => simp [Node.size, ihl, ihr]; omega

/-! Lemmas about `insert`. -/

theorem mem_keysList_insertGo {α : Type} (t : Node α) (k : Int) (v : α)
    (yk : Option Int) (x : Int) :
    x ∈ (insertGo t k v yk).keysList ↔ x = k ∨ x ∈ t.keysList := by
  induction t generalizing yk with
  | nil => simp [insertGo]
  | node k' v' p l r ihl ihr =>
    rcases lt_trichotomy k k' with h | h | h
    · simp only [insertGo, if_pos h]
      simp [ihl]
      tauto
    · subst h
      simp only [insertGo, lt_irrefl, if_neg (lt_irrefl k), gt_iff_lt, if_neg (lt_irrefl k)]
      simp
      tauto
    · simp only [insertGo, if_neg (by omega : ¬ k < k'), gt_iff_lt, if_pos h]
      simp [ihr]
      tauto

theorem bst_insertGo {α : Type} {t : Node α} (k : Int) (v : α)
    (yk : Option Int) (h : BST t) : BST (insertGo t k v yk) := by
  induction t generalizing yk with
  | nil => exact ⟨by simp, by simp, trivial, trivial⟩
  | node k' v' p l r ihl ihr =>
    obtain ⟨hl, hr, bl, br⟩ := h
    rcases lt_trichotomy k k' with hc | hc | hc
    · simp only [insertGo, if_pos hc]
      refine ⟨?_, hr, ihl (some k') bl, br⟩
      intro x hx
      rcases (mem_keysList_insertGo l k v (some k') x).mp hx with rfl | hx
      · exact hc
      · exact hl x hx
    · subst hc
      simp only [insertGo, if_neg (lt_irrefl k), gt_iff_lt, if_neg (lt_irrefl k)]
      exact ⟨hl, hr, bl, br⟩
    · simp only [insertGo, if_neg (by omega : ¬ k < k'), gt_iff_lt, if_pos hc]
      refine ⟨hl, ?_, bl, ihr (some k') br⟩
      intro x hx
      rcases (mem_keysList_insertGo r k v (some k') x).mp hx with rfl | hx
      · exact hc
      · exact hr x hx

theorem parentOk_insertGo {α : Type} {t : Node α} {pk : Option Int}
    (k : Int) (v : α) (h : ParentOk t pk) : ParentOk (insertGo t k v pk) pk := by
  induction t generalizing pk with
  | nil => exact ⟨rfl, trivial, trivial⟩
  | node k' v' p l r ihl ihr =>
    obtain ⟨hp, hl, hr⟩ := h
    rcases lt_trichotomy k k' with hc | hc | hc
    · simp only [insertGo, if_pos hc]
      exact ⟨hp, ihl hl, hr⟩
    · subst hc
      simp only [insertGo, if_neg (lt_irrefl k), gt_iff_lt, if_neg (lt_irrefl k)]
      exact ⟨hp, hl, hr⟩
    · simp only [insertGo, if_neg (by omega : ¬ k < k'), gt_iff_lt, if_pos hc]
      exact ⟨hp, hl, ihr hr⟩

theorem lookup_insertGo {α : Type} (t : Node α) (k : Int) (v : α)
    (yk : Option Int) (j : Int) :
    lookup (insertGo t k v yk) j = if j = k then some v else lookup t j := by
  induction t generalizing yk with
  | nil =>
    rcases lt_trichotomy j k with h | h | h
    · simp only [insertGo, lookup, if_pos h, if_neg (by omega : ¬ (j = k))]
    · subst h
      simp [insertGo, lookup]
    · simp only [insertGo, lookup, if_neg (by omega : ¬ j < k), gt_iff_lt,
        if_pos h, if_neg (by omega : ¬ (j = k))]
  | node k' v' p l r ihl ihr =>
    rcases lt_trichotomy k k' with hc | hc | hc
    · simp only [insertGo, if_pos hc, lookup, gt_iff_lt]
      rw [ihl (some k')]
      split_ifs <;> first | rfl | omega
    · subst hc
      simp only [insertGo, if_neg (lt_irrefl k), gt_iff_lt, if_neg (lt_irrefl k),
        lookup]
      split_ifs <;> first | rfl | omega
    · simp only [insertGo, if_neg (by omega : ¬ k < k'), gt_iff_lt, if_pos hc,
        lookup]
      rw [ihr (some k')]
      split_ifs <;> first | rfl | omega

/-! Sortedness and the lookup-membership bridge. -/

theorem bst_keys_sorted {α : Type} {t : Node α} (h : BST t) :
    t.keysList.Sorted (· < ·) := by
  induction t with
  | nil => simp
  | node k v p l r ihl ihr =>
    obtain ⟨hl, hr, bl, br⟩ := h
    rw [keysList_node]
    refine List.pairwise_append.mpr ⟨ihl bl, ?_, ?_⟩
    · exact List.pairwise_cons.mpr ⟨fun b hb => hr b hb, ihr br⟩
    · intro a ha b hb
      rcases List.mem_cons.mp hb with rfl | hb
      · exact hl a ha
      · exact lt_trans (hl a ha) (hr b hb)

theorem bst_keys_nodup {α : Type} {t : Node α} (h : BST t) :
    t.keysList.Nodup :=
  (bst_keys_sorted h).imp fun hlt => ne_of_lt hlt

theorem mem_keys_of_mem_pairs {α : Type} {t : Node α} {k : Int} {v : α}
    (h : (k, v) ∈ t.inorderPairs) : k ∈ t.keysList := by
  simpa [Node.keysList] using List.mem_map_of_mem Prod.fst h

theorem lookup_some_mem_pairs {α : Type} {t : Node α} {k : Int} {v : α}
    (h : lookup t k = some v) : (k, v) ∈ t.inorderPairs := by
  induction t with
  | nil => simp [lookup] at h
  | node k' v' p l r ihl ihr =>
    rcases lt_trichotomy k k' with hc | hc | hc
    · rw [lookup, if_pos hc] at h
      exact List.mem_append_left _ (ihl h)
    · subst hc
      rw [lookup, if_neg (lt_irrefl k), if_neg (lt_irrefl k)] at h
      cases h
      simp
    · rw [lookup, if_neg (by omega : ¬ k < k'), if_pos hc] at h
      exact List.mem_append_right _ (List.mem_cons_of_mem _ (ihr h))

theorem mem_pairs_iff_lookup {α : Type} {t : Node α} {k : Int} {v : α}
    (h : BST t) : (k, v) ∈ t.inorderPairs ↔ lookup t k = some v := by
  constructor
  · intro hm
    induction t with
    | nil => simp at hm
    | node k' v' p l r ihl ihr =>
      obtain ⟨hl, hr, bl, br⟩ := h
      rw [inorderPairs_node] at hm
      rcases List.mem_append.mp hm with hm | hm
      · have hk : k < k' := hl k (mem_keys_of_mem_pairs hm)
        rw [lookup, if_pos hk]
        exact ihl bl hm
      · rcases List.mem_cons.mp hm with hm | hm
        · injection hm with h1 h2
          subst h1
          subst h2
          rw [lookup, if_neg (lt_irrefl k), if_neg (lt_irrefl k)]
        · have hk : k' < k := hr k (mem_keys_of_mem_pairs hm)
          rw [lookup, if_neg (by omega : ¬ k < k'), if_pos hk]
          exact ihr br hm
  · exact lookup_some_mem_pairs

theorem lookup_eq_none_iff {α : Type} {t : Node α} {k : Int} (h : BST t) :
    lookup t k = none ↔ k ∉ t.keysList := by
  constructor
  · intro hn hm
    obtain ⟨v, hp⟩ : ∃ v, (k, v) ∈ t.inorderPairs := by
      simpa [Node.keysList, List.mem_map] using hm
    rw [(mem_pairs_iff_lookup h).mp hp] at hn
    cases hn
  · intro hm
    cases hv : lookup t k with
    | none => rfl
    | some v =>
      exact absurd (mem_keys_of_mem_pairs (lookup_some_mem_pairs hv)) hm

theorem keysList_insertGo_found {α : Type} {t : Node α} {k : Int} {w : α}
    (v : α) (yk : Option Int) (h : lookup t k = some w) :
    (insertGo t k v yk).keysList = t.keysList := by
  induction t generalizing yk with
  | nil => simp [lookup] at h
  | node k' v' p l r ihl ihr =>
    rcases lt_trichotomy k k' with hc | hc | hc
    · rw [lookup, if_pos hc] at h
      rw [insertGo, if_pos hc, keysList_node, keysList_node, ihl (some k') h]
    · subst hc
      rw [insertGo, if_neg (lt_irrefl k), if_neg (lt_irrefl k),
        keysList_node, keysList_node]
    · rw [lookup, if_neg (by omega : ¬ k < k'), if_pos hc] at h
      rw [insertGo, if_neg (by omega : ¬ k < k'), if_pos hc,
        keysList_node, keysList_node, ihr (some k') h]

/-! Lemmas about `delMin`, the splice of the in-order successor. -/

theorem delMin_eq_none_iff {α : Type} {t : Node α} :
    delMin t = none ↔ t = .nil := by
  cases t with
  | nil => simp [delMin]
  | node k v p l r =>
    cases l with
    | nil => simp [delMin]
    | node lk lv lp ll lr =>
      rw [delMin]
      cases h' : delMin (.node lk lv lp ll lr) with
      | none =>
        have : (Node.node lk lv lp ll lr : Node α) = .nil := by
          have := delMin_eq_none_iff.mp h'
          exact this
        cases this
      | some pr => simp

theorem delMin_pairs {α : Type} {t t' : Node α} {yk : Int} {yv : α}
    (h : delMin t = some ((yk, yv), t')) :
    t.inorderPairs = (yk, yv) :: t'.inorderPairs := by
  induction t generalizing t' with
  | nil => simp [delMin] at h
  | node k v p l r ihl ihr =>
    cases l with
    | nil =>
      rw [delMin] at h
      injection h with h
      injection h with h1 h2
      injection h1 with h3 h4
      subst h3
      subst h4
      subst h2
      simp
    | node lk lv lp ll lr =>
      rw [delMin] at h
      cases h' : delMin (.node lk lv lp ll lr) with
      | none => rw [h'] at h; cases h
      | some pr =>
        obtain ⟨⟨yk1, yv1⟩, l'⟩ := pr
        rw [h'] at h
        injection h with h
        injection h with h1 h2
        injection h1 with h3 h4
        subst h3
        subst h4
        subst h2
        rw [inorderPairs_node, ihl h']
        simp

theorem delMin_keys {α : Type} {t t' : Node α} {yk : Int} {yv : α}
    (h : delMin t = some ((yk, yv), t')) :
    t.keysList = yk :: t'.keysList := by
  simp [Node.keysList, delMin_pairs h]

theorem delMin_bst {α : Type} {t t' : Node α} {yk : Int} {yv : α}
    (hb : BST t) (h : delMin t = some ((yk, yv), t')) : BST t' := by
  induction t generalizing t' with
  | nil => simp [delMin] at h
  | node k v p l r ihl ihr =>
    obtain ⟨hl, hr, bl, br⟩ := hb
    cases l with
    | nil =>
      rw [delMin] at h
      injection h with h
      injection h with h1 h2
      subst h2
      exact bst_setParent _ br
    | node lk lv lp ll lr =>
      rw [delMin] at h
      cases h' : delMin (.node lk lv lp ll lr) with
      | none => rw [h'] at h; cases h
      | some pr =>
        obtain ⟨⟨yk1, yv1⟩, l'⟩ := pr
        rw [h'] at h
        injection h with h
        injection h with h1 h2
        injection h1 with h3 h4
        subst h3
        subst h4
        subst h2
        refine ⟨?_, hr, ihl bl h', br⟩
        intro x hx
        refine hl x ?_
        rw [delMin_keys h']
        exact List.mem_cons_of_mem _ hx

theorem delMin_parentOk {α : Type} {t t' : Node α} {kv : Int × α}
    {pk : Option Int} (hp : ParentOk t pk) (h : delMin t = some (kv, t')) :
    ParentOk t' pk := by
  induction t generalizing t' pk kv with
  | nil => simp [delMin] at h
  | node k v p l r ihl ihr =>
    obtain ⟨rfl, hpl, hpr⟩ := hp
    cases l with
    | nil =>
      rw [delMin] at h
      injection h with h
      injection h with h1 h2
      subst h2
      exact parentOk_setParent _ hpr
    | node lk lv lp ll lr =>
      rw [delMin] at h
      cases h' : delMin (.node lk lv lp ll lr) with
      | none => rw [h'] at h; cases h
      | some pr =>
        obtain ⟨kv1, l'⟩ := pr
        rw [h'] at h
        injection h with h
        injection h with h1 h2
        subst h2
        exact ⟨rfl, ihl hpl h', hpr⟩

/-! Lemmas about `_delete_node` at the located node. -/

theorem deleteRoot_two {α : Type} {k : Int} {v : α} {p : Option Int}
    {lk : Int} {lv : α} {lp : Option Int} {ll lr : Node α}
    {rk : Int} {rv : α} {rp : Option Int} {rl rr : Node α}
    {yk : Int} {yv : α} {r' : Node α}
    (h' : delMin (Node.node rk rv rp rl rr) = some ((yk, yv), r')) :
    deleteRoot (Node.node k v p (Node.node lk lv lp ll lr)
        (Node.node rk rv rp rl rr)) =
      Node.node yk yv p ((Node.node lk lv lp ll lr).setParent (some yk))
        (r'.setParent (some yk)) := by
  rw [deleteRoot, h']
  case x_1 => intro hx; exact Node.noConfusion hx
  case x_2 => intro hx; exact Node.noConfusion hx

theorem pairs_deleteRoot {α : Type} {k : Int} {v : α} {p : Option Int}
    {l r : Node α} (hb : BST (Node.node k v p l r)) :
    (deleteRoot (Node.node k v p l r)).inorderPairs =
      l.inorderPairs ++ r.inorderPairs := by
  cases l with
  | nil => simp [deleteRoot]
  | node lk lv lp ll lr =>
    cases r with
    | nil => simp [deleteRoot]
    | node rk rv rp rl rr =>
      obtain ⟨⟨⟨yk, yv⟩, r'⟩, h'⟩ :
          ∃ pr, delMin (Node.node rk rv rp rl rr) = some pr := by
        cases hh : delMin (Node.node rk rv rp rl rr) with
        | none => exact absurd (delMin_eq_none_iff.mp hh) (fun hx => Node.noConfusion hx)
        | some pr => exact ⟨pr, rfl⟩
      rw [deleteRoot_two h']
      simp [delMin_pairs h']

theorem bst_deleteRoot {α : Type} {k : Int} {v : α} {p : Option Int}
    {l r : Node α} (hb : BST (Node.node k v p l r)) :
    BST (deleteRoot (Node.node k v p l r)) := by
  obtain ⟨hl, hr, bl, br⟩ := hb
  cases l with
  | nil =>
    rw [deleteRoot]
    exact bst_setParent _ br
  | node lk lv lp ll lr =>
    cases r with
    | nil =>
      rw [deleteRoot]
      exact bst_setParent _ bl
    | node rk rv rp rl rr =>
      obtain ⟨⟨⟨yk, yv⟩, r'⟩, h'⟩ :
          ∃ pr, delMin (Node.node rk rv rp rl rr) = some pr := by
        cases hh : delMin (Node.node rk rv rp rl rr) with
        | none => exact absurd (delMin_eq_none_iff.mp hh) (fun hx => Node.noConfusion hx)
        | some pr => exact ⟨pr, rfl⟩
      rw [deleteRoot_two h']
      have hyk : yk ∈ (Node.node rk rv rp rl rr).keysList := by
        rw [delMin_keys h']
        exact List.mem_cons_self _ _
      have hsr : ∀ x ∈ r'.keysList, yk < x := by
        have hs := bst_keys_sorted br
        rw [delMin_keys h'] at hs
        exact List.rel_of_sorted_cons hs
      refine ⟨?_, ?_, bst_setParent _ bl, bst_setParent _ (delMin_bst br h')⟩
      · intro x hx
        rw [keysList_setParent] at hx
        exact lt_trans (hl x hx) (hr yk hyk)
      · intro x hx
        rw [keysList_setParent] at hx
        exact hsr x hx

theorem parentOk_deleteRoot {α : Type} {k : Int} {v : α} {p : Option Int}
    {l r : Node α} {pk : Option Int} (hp : ParentOk (Node.node k v p l r) pk) :
    ParentOk (deleteRoot (Node.node k v p l r)) pk := by
  obtain ⟨rfl, hpl, hpr⟩ := hp
  cases l with
  | nil =>
    rw [deleteRoot]
    exact parentOk_setParent _ hpr
  | node lk lv lp ll lr =>
    cases r with
    | nil =>
      rw [deleteRoot]
      exact parentOk_setParent _ hpl
    | node rk rv rp rl rr =>
      obtain ⟨⟨⟨yk, yv⟩, r'⟩, h'⟩ :
          ∃ pr, delMin (Node.node rk rv rp rl rr) = some pr := by
        cases hh : delMin (Node.node rk rv rp rl rr) with
        | none => exact absurd (delMin_eq_none_iff.mp hh) (fun hx => Node.noConfusion hx)
        | some pr => exact ⟨pr, rfl⟩
      rw [deleteRoot_two h']
      exact ⟨rfl, parentOk_setParent _ hpl,
        parentOk_setParent _ (delMin_parentOk hpr h')⟩

/-! Lemmas about deletion at a key. -/

theorem pairs_deleteKey {α : Type} {t : Node α} (k : Int) (hb : BST t) :
    (deleteKey t k).inorderPairs =
      t.inorderPairs.filter (fun q => q.1 != k) := by
  induction t with
  | nil => simp [deleteKey]
  | node k' v' p l r ihl ihr =>
    obtain ⟨hl, hr, bl, br⟩ := hb
    rcases lt_trichotomy k k' with hc | hc | hc
    · rw [deleteKey, if_pos hc, inorderPairs_node, inorderPairs_node, ihl bl,
        List.filter_append, List.filter_cons]
      have h1 : ((k', v').1 != k) = true := by simp; omega
      rw [if_pos h1]
      have h2 : r.inorderPairs.filter (fun q => q.1 != k) = r.inorderPairs :=
        List.filter_eq_self.mpr fun q hq => by
          have := hr q.1 (mem_keys_of_mem_pairs (by simpa using hq))
          simp
          omega
      rw [h2]
    · subst hc
      rw [deleteKey, if_neg (lt_irrefl k), if_neg (lt_irrefl k),
        pairs_deleteRoot ⟨hl, hr, bl, br⟩, inorderPairs_node,
        List.filter_append, List.filter_cons]
      have h1 : ¬ (((k, v').1 != k) = true) := by simp
      rw [if_neg h1]
      have h2 : l.inorderPairs.filter (fun q => q.1 != k) = l.inorderPairs :=
        List.filter_eq_self.mpr fun q hq => by
          have := hl q.1 (mem_keys_of_mem_pairs (by simpa using hq))
          simp
          omega
      have h3 : r.inorderPairs.filter (fun q => q.1 != k) = r.inorderPairs :=
        List.filter_eq_self.mpr fun q hq => by
          have := hr q.1 (mem_keys_of_mem_pairs (by simpa using hq))
          simp
          omega
      rw [h2, h3]
    · rw [deleteKey, if_neg (by omega : ¬ k < k'), if_pos hc, inorderPairs_node,
        inorderPairs_node, ihr br, List.filter_append, List.filter_cons]
      have h1 : ((k', v').1 != k) = true := by simp; omega
      rw [if_pos h1]
      have h2 : l.inorderPairs.filter (fun q => q.1 != k) = l.inorderPairs :=
        List.filter_eq_self.mpr fun q hq => by
          have := hl q.1 (mem_keys_of_mem_pairs (by simpa using hq))
          simp
          omega
      rw [h2]

theorem keysList_deleteKey {α : Type} {t : Node α} (k : Int) (hb : BST t) :
    (deleteKey t k).keysList = t.keysList.filter (fun x => x != k) := by
  rw [Node.keysList, Node.keysList, pairs_deleteKey k hb, List.filter_map]
  rfl

theorem bst_deleteKey {α : Type} {t : Node α} (k : Int) (hb : BST t) :
    BST (deleteKey t k) := by
  induction t with
  | nil => trivial
  | node k' v' p l r ihl ihr =>
    obtain ⟨hl, hr, bl, br⟩ := hb
    rcases lt_trichotomy k k' with hc | hc | hc
    · rw [deleteKey, if_pos hc]
      refine ⟨?_, hr, ihl bl, br⟩
      intro x hx
      rw [keysList_deleteKey k bl] at hx
      exact hl x (List.mem_of_mem_filter hx)
    · subst hc
      rw [deleteKey, if_neg (lt_irrefl k), if_neg (lt_irrefl k)]
      exact bst_deleteRoot ⟨hl, hr, bl, br⟩
    · rw [deleteKey, if_neg (by omega : ¬ k < k'), if_pos hc]
      refine ⟨hl, ?_, bl, ihr br⟩
      intro x hx
      rw [keysList_deleteKey k br] at hx
      exact hr x (List.mem_of_mem_filter hx)

theorem parentOk_deleteKey {α : Type} {t : Node α} (k : Int) {pk : Option Int}
    (hp : ParentOk t pk) : ParentOk (deleteKey t k) pk := by
  induction t generalizing pk with
  | nil => trivial
  | node k' v' p l r ihl ihr =>
    obtain ⟨rfl, hpl, hpr⟩ := hp
    rcases lt_trichotomy k k' with hc | hc | hc
    · rw [deleteKey, if_pos hc]
      exact ⟨rfl, ihl hpl, hpr⟩
    · subst hc
      rw [deleteKey, if_neg (lt_irrefl k), if_neg (lt_irrefl k)]
      exact parentOk_deleteRoot ⟨rfl, hpl, hpr⟩
    · rw [deleteKey, if_neg (by omega : ¬ k < k'), if_pos hc]
      exact ⟨rfl, hpl, ihr hpr⟩

/-! Bridges from `search`/`delete` to `lookup`. -/

theorem findNode_eq_none_iff {α : Type} {t : Node α} {k : Int} :
    findNode t k = none ↔ lookup t k = none := by
  induction t with
  | nil => simp [findNode, lookup]
  | node k' v' p l r ihl ihr =>
    rcases lt_trichotomy k k' with hc | hc | hc
    · rw [findNode, if_pos hc, lookup, if_pos hc]
      exact ihl
    · subst hc
      rw [findNode, if_neg (lt_irrefl k), if_neg (lt_irrefl k),
        lookup, if_neg (lt_irrefl k), if_neg (lt_irrefl k)]
      simp
    · rw [findNode, if_neg (by omega : ¬ k < k'), if_pos hc,
        lookup, if_neg (by omega : ¬ k < k'), if_pos hc]
      exact ihr

theorem findNode_some_spec {α : Type} {t n : Node α} {k : Int}
    (h : findNode t k = some n) :
    ∃ v p l r, n = Node.node k v p l r ∧ lookup t k = some v := by
  induction t with
  | nil => simp [findNode] at h
  | node k' v' p l r ihl ihr =>
    rcases lt_trichotomy k k' with hc | hc | hc
    · rw [findNode, if_pos hc] at h
      obtain ⟨v1, p1, l1, r1, rfl, hv⟩ := ihl h
      exact ⟨v1, p1, l1, r1, rfl, by rw [lookup, if_pos hc]; exact hv⟩
    · subst hc
      rw [findNode, if_neg (lt_irrefl k), if_neg (lt_irrefl k)] at h
      injection h with h
      exact ⟨v', p, l, r, h.symm, by
        rw [lookup, if_neg (lt_irrefl k), if_neg (lt_irrefl k)]⟩
    · rw [findNode, if_neg (by omega : ¬ k < k'), if_pos hc] at h
      obtain ⟨v1, p1, l1, r1, rfl, hv⟩ := ihr h
      exact ⟨v1, p1, l1, r1, rfl, by
        rw [lookup, if_neg (by omega : ¬ k < k'), if_pos hc]; exact hv⟩

theorem search_eq_lookup {α : Type} (t : Node α) (k : Int) :
    search ⟨t⟩ k = match lookup t k with
      | some v => .ok v
      | none => .error .keyNotFound := by
  cases t with
  | nil => rfl
  | node k' v' p l r =>
    cases hf : findNode (.node k' v' p l r) k with
    | none =>
      rw [findNode_eq_none_iff.mp hf]
      simp only [search, searchNode, hf]
      rfl
    | some n =>
      obtain ⟨v, p1, l1, r1, rfl, hv⟩ := findNode_some_spec hf
      rw [hv]
      simp only [search, searchNode, hf]
      rfl

theorem delete_eq_lookup {α : Type} (t : Node α) (k : Int) :
    delete ⟨t⟩ k = match lookup t k with
      | some _ => .ok ⟨deleteKey t k⟩
      | none => .error .keyNotFound := by
  cases t with
  | nil => simp [delete, searchNode, lookup, deleteKey]
  | node k' v' p l r =>
    cases hf : findNode (.node k' v' p l r) k with
    | none =>
      rw [findNode_eq_none_iff.mp hf]
      simp [delete, searchNode, hf]
    | some n =>
      obtain ⟨v, p1, l1, r1, rfl, hv⟩ := findNode_some_spec hf
      rw [hv]
      simp [delete, searchNode, hf]

/-! Lemmas about `minimum` and `maximum`. -/

theorem minimumNode_head {α : Type} (t : Node α) (hne : t ≠ .nil) :
    ∃ k v p r', minimumNode t = some (.node k v p .nil r') ∧
      ∃ tl, t.keysList = k :: tl := by
  induction t with
  | nil => exact absurd rfl hne
  | node k v p l r ihl ihr =>
    cases l with
    | nil =>
      refine ⟨k, v, p, r, by rw [minimumNode], ⟨r.keysList, by simp⟩⟩
    | node lk lv lp ll lr =>
      obtain ⟨k1, v1, p1, r1, hm, tl, htl⟩ := ihl (fun hx => Node.noConfusion hx)
      refine ⟨k1, v1, p1, r1, by rw [minimumNode]; exact hm,
        ⟨tl ++ k :: r.keysList, ?_⟩⟩
      rw [keysList_node, htl]
      simp

theorem maximumNode_last {α : Type} (t : Node α) (hne : t ≠ .nil) :
    ∃ k v p l', maximumNode t = some (.node k v p l' .nil) ∧
      ∃ tl, t.keysList = tl ++ [k] := by
  induction t with
  | nil => exact absurd rfl hne
  | node k v p l r ihl ihr =>
    cases r with
    | nil =>
      refine ⟨k, v, p, l, by rw [maximumNode], ⟨l.keysList, by simp⟩⟩
    | node rk rv rp rl rr =>
      obtain ⟨k1, v1, p1, l1, hm, tl, htl⟩ := ihr (fun hx => Node.noConfusion hx)
      refine ⟨k1, v1, p1, l1, by rw [maximumNode]; exact hm,
        ⟨l.keysList ++ k :: tl, ?_⟩⟩
      rw [keysList_node, htl]
      simp

theorem minimum_eq_error_iff {α : Type} (t : Tree α) :
    minimum t = .error .emptyTree ↔ t.root = .nil := by
  obtain ⟨root⟩ := t
  cases root with
  | nil => simp [minimum]
  | node k v p l r =>
    obtain ⟨k1, v1, p1, r1, hm, _⟩ :=
      minimumNode_head (Node.node k v p l r) (fun hx => Node.noConfusion hx)
    simp [minimum, hm]

theorem maximum_eq_error_iff {α : Type} (t : Tree α) :
    maximum t = .error .emptyTree ↔ t.root = .nil := by
  obtain ⟨root⟩ := t
  cases root with
  | nil => simp [maximum]
  | node k v p l r =>
    obtain ⟨k1, v1, p1, l1, hm, _⟩ :=
      maximumNode_last (Node.node k v p l r) (fun hx => Node.noConfusion hx)
    simp [maximum, hm]

theorem minimum_ok_spec {α : Type} {t : Tree α} (hb : BST t.root)
    (hne : t.root ≠ .nil) :
    ∃ m, minimum t = .ok m ∧ m ∈ t.root.keysList ∧
      ∀ x ∈ t.root.keysList, m ≤ x := by
  obtain ⟨root⟩ := t
  cases root with
  | nil => exact absurd rfl hne
  | node k v p l r =>
    obtain ⟨k1, v1, p1, r1, hm, tl, htl⟩ :=
      minimumNode_head (Node.node k v p l r) (fun hx => Node.noConfusion hx)
    refine ⟨k1, by simp [minimum, hm], by rw [htl]; exact List.mem_cons_self _ _, ?_⟩
    have hs := bst_keys_sorted hb
    rw [htl] at hs ⊢
    intro x hx
    rcases List.mem_cons.mp hx with rfl | hx
    · exact le_refl x
    · exact le_of_lt (List.rel_of_sorted_cons hs x hx)

theorem maximum_ok_spec {α : Type} {t : Tree α} (hb : BST t.root)
    (hne : t.root ≠ .nil) :
    ∃ m, maximum t = .ok m ∧ m ∈ t.root.keysList ∧
      ∀ x ∈ t.root.keysList, x ≤ m := by
  obtain ⟨root⟩ := t
  cases root with
  | nil => exact absurd rfl hne
  | node k v p l r =>
    obtain ⟨k1, v1, p1, l1, hm, tl, htl⟩ :=
      maximumNode_last (Node.node k v p l r) (fun hx => Node.noConfusion hx)
    refine ⟨k1, by simp [maximum, hm], by rw [htl]; simp, ?_⟩
    have hs := bst_keys_sorted hb
    rw [htl] at hs ⊢
    intro x hx
    rcases List.mem_append.mp hx with hx | hx
    · exact le_of_lt ((List.pairwise_append.mp hs).2.2 x hx k1 (List.mem_singleton_self _))
    · rw [List.mem_singleton.mp hx]

/-! The state-machine invariant: every reachable tree is a BST with correct
parent links. -/

theorem applyOp_preserves_inv {α : Type} (t : Tree α) (op : Op α)
    (hb : BST t.root) (hp : ParentOk t.root none) :
    BST (applyOp t op).root ∧ ParentOk (applyOp t op).root none := by
  obtain ⟨root⟩ := t
  cases op with
  | ins k v => exact ⟨bst_insertGo k v none hb, parentOk_insertGo k v hp⟩
  | del k =>
    cases hl : lookup root k with
    | none => simpa [applyOp, delete_eq_lookup, hl] using ⟨hb, hp⟩
    | some v =>
      simpa [applyOp, delete_eq_lookup, hl] using
        ⟨bst_deleteKey k hb, parentOk_deleteKey k hp⟩

theorem foldl_applyOp_inv {α : Type} (ops : List (Op α)) (t : Tree α)
    (hb : BST t.root) (hp : ParentOk t.root none) :
    BST (ops.foldl applyOp t).root ∧ ParentOk (ops.foldl applyOp t).root none := by
  induction ops generalizing t with
  | nil => exact ⟨hb, hp⟩
  | cons op ops ih =>
    obtain ⟨hb1, hp1⟩ := applyOp_preserves_inv t op hb hp
    exact ih (applyOp t op) hb1 hp1

theorem applyOps_inv {α : Type} (ops : List (Op α)) :
    BST (applyOps ops).root ∧ ParentOk (applyOps ops).root none :=
  foldl_applyOp_inv ops ⟨.nil⟩ trivial trivial

end SortedDict


namespace DictTree

/-! Equivalence of the two engine copies, via the field-for-field
translation `toSorted`. -/

theorem dt_toSorted_setParent {α : Type} (t : Node α) (p : Option Int) :
    toSorted (t.setParent p) = (toSorted t).setParent p := by
  cases t <;> rfl

theorem dt_toSorted_insertGo {α : Type} (t : Node α) (k : Int) (v : α)
    (yk : Option Int) :
    toSorted (insertGo t k v yk) = SortedDict.insertGo (toSorted t) k v yk := by
  induction t generalizing yk with
  | nil => rfl
  | node k' v' p l r ihl ihr =>
    rcases lt_trichotomy k k' with hc | hc | hc
    · rw [insertGo, if_pos hc, toSorted, toSorted, SortedDict.insertGo,
        if_pos hc, ihl (some k')]
    · subst hc
      rw [insertGo, if_neg (lt_irrefl k), if_neg (lt_irrefl k), toSorted,
        toSorted, SortedDict.insertGo, if_neg (lt_irrefl k), if_neg (lt_irrefl k)]
    · rw [insertGo, if_neg (by omega : ¬ k < k'), if_pos hc, toSorted, toSorted,
        SortedDict.insertGo, if_neg (by omega : ¬ k < k'), if_pos hc, ihr (some k')]

theorem dt_findNode {α : Type} (t : Node α) (k : Int) :
    (findNode t k).map toSorted = SortedDict.findNode (toSorted t) k := by
  induction t with
  | nil => rfl
  | node k' v' p l r ihl ihr =>
    rcases lt_trichotomy k k' with hc | hc | hc
    · rw [findNode, if_pos hc, toSorted, SortedDict.findNode, if_pos hc, ihl]
    · subst hc
      rw [findNode, if_neg (lt_irrefl k), if_neg (lt_irrefl k), toSorted,
        SortedDict.findNode, if_neg (lt_irrefl k), if_neg (lt_irrefl k)]
      rfl
    · rw [findNode, if_neg (by omega : ¬ k < k'), if_pos hc, toSorted,
        SortedDict.findNode, if_neg (by omega : ¬ k < k'), if_pos hc, ihr]

theorem dt_delMin {α : Type} (t : Node α) :
    (delMin t).map (fun pr => (pr.1, toSorted pr.2)) =
      SortedDict.delMin (toSorted t) := by
  induction t with
  | nil => rfl
  | node k v p l r ihl ihr =>
    cases l with
    | nil =>
      rw [delMin, toSorted, toSorted, SortedDict.delMin]
      simp [dt_toSorted_setParent]
    | node lk lv lp ll lr =>
      have ihl2 : (delMin (Node.node lk lv lp ll lr)).map
            (fun pr => (pr.1, toSorted pr.2)) =
          SortedDict.delMin (.node lk lv lp (toSorted ll) (toSorted lr)) := ihl
      rw [delMin]
      rw [show toSorted (Node.node k v p (Node.node lk lv lp ll lr) r) =
        SortedDict.Node.node k v p
          (.node lk lv lp (toSorted ll) (toSorted lr)) (toSorted r) from rfl]
      rw [SortedDict.delMin, ← ihl2]
      cases h' : delMin (Node.node lk lv lp ll lr) with
      | none => rfl
      | some pr =>
        obtain ⟨⟨yk, yv⟩, l'⟩ := pr
        rfl

theorem dt_deleteRoot {α : Type} (t : Node α) :
    toSorted (deleteRoot t) = SortedDict.deleteRoot (toSorted t) := by
  cases t with
  | nil => rfl
  | node k v p l r =>
    cases l with
    | nil =>
      rw [deleteRoot]
      rw [show toSorted (Node.node k v p Node.nil r) =
        SortedDict.Node.node k v p .nil (toSorted r) from rfl]
      rw [SortedDict.deleteRoot, dt_toSorted_setParent]
    | node lk lv lp ll lr =>
      cases r with
      | nil =>
        rw [deleteRoot]
        rw [show toSorted (Node.node k v p (Node.node lk lv lp ll lr) Node.nil) =
          SortedDict.Node.node k v p
            (.node lk lv lp (toSorted ll) (toSorted lr)) .nil from rfl]
        rw [SortedDict.deleteRoot, dt_toSorted_setParent]
        rfl
      | node rk rv rp rl rr =>
        have h2 : (delMin (Node.node rk rv rp rl rr)).map
              (fun pr => (pr.1, toSorted pr.2)) =
            SortedDict.delMin (.node rk rv rp (toSorted rl) (toSorted rr)) :=
          dt_delMin _
        cases h' : delMin (Node.node rk rv rp rl rr) with
        | none =>
          rw [h'] at h2
          exact absurd (SortedDict.delMin_eq_none_iff.mp h2.symm)
            (fun hx => SortedDict.Node.noConfusion hx)
        | some pr =>
          obtain ⟨⟨yk, yv⟩, r'⟩ := pr
          rw [h'] at h2
          rw [deleteRoot, h']
          case x_1 => intro hx; exact Node.noConfusion hx
          case x_2 => intro hx; exact Node.noConfusion hx
          rw [show toSorted (Node.node k v p (Node.node lk lv lp ll lr)
              (Node.node rk rv rp rl rr)) =
            SortedDict.Node.node k v p
              (.node lk lv lp (toSorted ll) (toSorted lr))
              (.node rk rv rp (toSorted rl) (toSorted rr)) from rfl]
          rw [SortedDict.deleteRoot_two h2.symm]
          rw [show toSorted (Node.node yk yv p
              ((Node.node lk lv lp ll lr).setParent (some yk))
              (r'.setParent (some yk))) =
            SortedDict.Node.node yk yv p
              (toSorted ((Node.node lk lv lp ll lr).setParent (some yk)))
              (toSorted (r'.setParent (some yk))) from rfl]
          rw [dt_toSorted_setParent, dt_toSorted_setParent]
          rfl

theorem dt_deleteKey {α : Type} (t : Node α) (k : Int) :
    toSorted (deleteKey t k) = SortedDict.deleteKey (toSorted t) k := by
  induction t with
  | nil => rfl
  | node k' v' p l r ihl ihr =>
    rcases lt_trichotomy k k' with hc | hc | hc
    · rw [deleteKey, if_pos hc, toSorted, toSorted, SortedDict.deleteKey,
        if_pos hc, ihl]
    · subst hc
      rw [show toSorted (Node.node k v' p l r) =
        SortedDict.Node.node k v' p (toSorted l) (toSorted r) from rfl]
      rw [deleteKey, if_neg (lt_irrefl k), if_neg (lt_irrefl k),
        SortedDict.deleteKey, if_neg (lt_irrefl k), if_neg (lt_irrefl k),
        dt_deleteRoot]
      rfl
    · rw [deleteKey, if_neg (by omega : ¬ k < k'), if_pos hc, toSorted, toSorted,
        SortedDict.deleteKey, if_neg (by omega : ¬ k < k'), if_pos hc, ihr]

theorem dt_search_node {α : Type} (t : Tree α) (k : Int) :
    (search_node t k).map toSorted = SortedDict.searchNode (toSortedTree t) k := by
  obtain ⟨root⟩ := t
  cases root with
  | nil => rfl
  | node k' v' p l r =>
    have hfn : SortedDict.findNode
          (SortedDict.Node.node k' v' p (toSorted l) (toSorted r)) k =
        (findNode (Node.node k' v' p l r) k).map toSorted :=
      (dt_findNode (Node.node k' v' p l r) k).symm
    cases hf : findNode (Node.node k' v' p l r) k with
    | none =>
      rw [hf] at hfn
      simp only [Option.map] at hfn
      simp [search_node, SortedDict.searchNode, toSortedTree, toSorted, hf, hfn,
        Except.map]
    | some n =>
      rw [hf] at hfn
      simp only [Option.map] at hfn
      simp [search_node, SortedDict.searchNode, toSortedTree, toSorted, hf, hfn,
        Except.map]

theorem dt_search {α : Type} (t : Tree α) (k : Int) :
    search t k = SortedDict.search (toSortedTree t) k := by
  have hsn := dt_search_node t k
  cases hs : search_node t k with
  | error e =>
    rw [hs] at hsn
    simp only [Except.map] at hsn
    rw [search, SortedDict.search]
    rw [hs, ← hsn]
    rfl
  | ok n =>
    rw [hs] at hsn
    simp only [Except.map] at hsn
    rw [search, SortedDict.search]
    rw [hs, ← hsn]
    cases n <;> rfl

theorem dt_delete {α : Type} (t : Tree α) (k : Int) :
    (delete t k).map toSortedTree = SortedDict.delete (toSortedTree t) k := by
  obtain ⟨root⟩ := t
  have hsn := dt_search_node ⟨root⟩ k
  cases hs : search_node ⟨root⟩ k with
  | error e =>
    rw [hs] at hsn
    simp only [Except.map] at hsn
    rw [delete, SortedDict.delete, hs, ← hsn]
    rfl
  | ok n =>
    rw [hs] at hsn
    simp only [Except.map] at hsn
    rw [delete, SortedDict.delete, hs, ← hsn]
    simp only [Except.map]
    rw [show toSortedTree (⟨deleteKey root k⟩ : Tree α) =
      (⟨toSorted (deleteKey root k)⟩ : SortedDict.Tree α) from rfl]
    rw [dt_deleteKey]
    rfl

theorem dt_applyOp {α : Type} (t : Tree α) (op : SortedDict.Op α) :
    toSortedTree (applyOp t op) = SortedDict.applyOp (toSortedTree t) op := by
  cases op with
  | ins k v =>
    rw [applyOp, SortedDict.applyOp, insert_to, SortedDict.insert, toSortedTree]
    rw [show (toSortedTree t).root = toSorted t.root from rfl]
    rw [← dt_toSorted_insertGo]
  | del k =>
    have hd := dt_delete t k
    cases hdel : delete t k with
    | error e =>
      rw [hdel] at hd
      simp only [Except.map] at hd
      rw [applyOp, SortedDict.applyOp, hdel, ← hd]
    | ok t' =>
      rw [hdel] at hd
      simp only [Except.map] at hd
      rw [applyOp, SortedDict.applyOp, hdel, ← hd]

theorem dt_applyOps_from {α : Type} (ops : List (SortedDict.Op α)) (t : Tree α) :
    toSortedTree (ops.foldl applyOp t) =
      ops.foldl SortedDict.applyOp (toSortedTree t) := by
  induction ops generalizing t with
  | nil => rfl
  | cons op ops ih =>
    rw [List.foldl_cons, List.foldl_cons, ih, dt_applyOp]

theorem dt_applyOps {α : Type} (ops : List (SortedDict.Op α)) :
    toSortedTree (applyOps ops) = SortedDict.applyOps ops := by
  rw [applyOps, SortedDict.applyOps, dt_applyOps_from]
  rfl

end DictTree

namespace SortedDict

/-! Further helper lemmas for the claims about insertion sequences,
deletion counts, and the fueled insertion loop. -/

theorem lookup_foldl_insert {α : Type} (ps : List (Int × α)) (t : Node α)
    (k : Int) :
    lookup (ps.foldl (fun t2 p => insert t2 p.1 p.2) ⟨t⟩).root k =
      ps.foldl (fun acc p => if p.1 = k then some p.2 else acc) (lookup t k) := by
  induction ps generalizing t with
  | nil => rfl
  | cons q ps ih =>
    rw [List.foldl_cons, List.foldl_cons]
    rw [show insert (⟨t⟩ : Tree α) q.1 q.2 = ⟨insertGo t q.1 q.2 none⟩ from rfl]
    rw [ih (insertGo t q.1 q.2 none)]
    rw [lookup_insertGo]
    by_cases hq : k = q.1
    · rw [if_pos hq, if_pos hq.symm]
    · rw [if_neg hq, if_neg (fun hx => hq hx.symm)]

theorem length_filter_ne_of_mem {l : List Int} {k : Int} (hd : l.Nodup)
    (hm : k ∈ l) :
    (l.filter (fun x => x != k)).length + 1 = l.length := by
  induction l with
  | nil => cases hm
  | cons a l ih =>
    obtain ⟨hna, hdl⟩ := List.nodup_cons.mp hd
    rcases List.mem_cons.mp hm with rfl | hm
    · rw [List.filter_cons, if_neg (by simp)]
      rw [List.filter_eq_self.mpr fun b hb => by
        simp only [bne_iff_ne, ne_eq, decide_eq_true_eq]
        exact fun hba => hna (hba ▸ hb)]
      simp
    · have ha : ((a != k) = true) := by
        simp only [bne_iff_ne, ne_eq, decide_eq_true_eq]
        rintro rfl
        exact hna hm
      rw [List.filter_cons, if_pos ha]
      simp only [List.length_cons]
      have := ih hdl hm
      omega

theorem lookup_deleteKey_ne {α : Type} {t : Node α} (hb : BST t) {k k' : Int}
    (hne : k' ≠ k) :
    lookup (deleteKey t k) k' = lookup t k' := by
  cases hv : lookup t k' with
  | some v =>
    have hm : (k', v) ∈ t.inorderPairs := lookup_some_mem_pairs hv
    have hm' : (k', v) ∈ (deleteKey t k).inorderPairs := by
      rw [pairs_deleteKey k hb]
      exact List.mem_filter.mpr ⟨hm, by simp [hne]⟩
    exact (mem_pairs_iff_lookup (bst_deleteKey k hb)).mp hm'
  | none =>
    cases hv' : lookup (deleteKey t k) k' with
    | none => rfl
    | some v =>
      have hm := lookup_some_mem_pairs hv'
      rw [pairs_deleteKey k hb] at hm
      have := (mem_pairs_iff_lookup hb).mp (List.mem_of_mem_filter hm)
      rw [hv] at this
      cases this

theorem lookup_deleteKey_self {α : Type} {t : Node α} (hb : BST t) (k : Int) :
    lookup (deleteKey t k) k = none := by
  rw [lookup_eq_none_iff (bst_deleteKey k hb)]
  intro hm
  rw [keysList_deleteKey k hb] at hm
  have := List.of_mem_filter hm
  simp at this

theorem walk_eq_inorderPairs {α : Type} (t : Tree α) :
    walk t = t.root.inorderPairs := by
  obtain ⟨root⟩ := t
  cases root <;> rfl

theorem keys_eq_keysList {α : Type} (t : Tree α) :
    keys t = t.root.keysList := rfl

theorem insertFuel_sufficient {α : Type} (t : Node α) (k : Int) (v : α)
    (yk : Option Int) {fuel : Nat} (hf : t.size < fuel) :
    insertFuel fuel t k v yk = some (insertGo t k v yk) := by
  induction t generalizing fuel yk with
  | nil =>
    cases fuel with
    | zero => cases hf
    | succ n => rfl
  | node k' v' p l r ihl ihr =>
    cases fuel with
    | zero => cases hf
    | succ n =>
      have hsz : (Node.node k' v' p l r).size = l.size + r.size + 1 := rfl
      rcases lt_trichotomy k k' with hc | hc | hc
      · rw [insertFuel, if_pos hc, insertGo, if_pos hc,
          ihl (some k') (by omega)]
        rfl
      · subst hc
        rw [insertFuel, if_neg (lt_irrefl k), if_neg (lt_irrefl k),
          insertGo, if_neg (lt_irrefl k), if_neg (lt_irrefl k)]
      · rw [insertFuel, if_neg (by omega : ¬ k < k'), if_pos hc,
          insertGo, if_neg (by omega : ¬ k < k'), if_pos hc,
          ihr (some k') (by omega)]
        rfl

end SortedDict

namespace TransplantHeap

/-! Lemmas about `_transplant`'s assertion branch. -/

theorem th_parentLink_of_ok {α : Type} {h : Heap α} (hok : parentLinkOk h = true)
    {u : Nat} {ur : NodeRec α} (hu : lookupA h u = some ur) {pa : Nat}
    (hp : ur.parent = some pa) :
    ∃ pr, lookupA h pa = some pr ∧ (pr.left = some u ∨ pr.right = some u) := by
  rw [lookupA] at hu
  cases hfind : h.nodes.find? (fun p => p.1 == u) with
  | none => rw [hfind] at hu; cases hu
  | some q =>
    rw [hfind] at hu
    injection hu with hu
    have hqmem : q ∈ h.nodes := List.mem_of_find?_eq_some hfind
    have hq1 : q.1 = u := by
      have := List.find?_some hfind
      simpa using this
    have hall := (List.all_eq_true.mp (by rw [parentLinkOk] at hok; exact hok)) q hqmem
    rw [hu, hp] at hall
    cases hpa : lookupA h pa with
    | none =>
      simp [hpa] at hall
    | some pr =>
      simp only [hpa] at hall
      refine ⟨pr, rfl, ?_⟩
      have hall2 : pr.left = some q.1 ∨ pr.right = some q.1 := by
        simpa using hall
      rcases hall2 with h1 | h1
      · left
        rw [← hq1]
        exact h1
      · right
        rw [← hq1]
        exact h1

theorem relink_assert_iff {α : Type} (h : Heap α) (u : Nat) (ur : NodeRec α)
    (v : Option Nat) :
    relink h u ur v = .error .assertionError ↔
      ∃ pa pr, ur.parent = some pa ∧ lookupA h pa = some pr ∧
        pr.left ≠ some u ∧ pr.right ≠ some u := by
  cases hpp : ur.parent with
  | none =>
    have hred : relink h u ur v = .ok (setRoot h v) := by
      simp only [relink, hpp]
    rw [hred]
    constructor
    · intro hc
      cases hc
    · rintro ⟨pa, pr, hpa, _⟩
      cases hpa
  | some pa =>
    cases hpa : lookupA h pa with
    | none =>
      have hred : relink h u ur v = .error .danglingRef := by
        simp only [relink, hpp, hpa]
      rw [hred]
      constructor
      · intro hc
        injection hc with hc
        cases hc
      · rintro ⟨pa1, pr, hpa1, hlk, _⟩
        injection hpa1 with e
        subst e
        rw [hpa] at hlk
        cases hlk
    | some pr =>
      by_cases hL : pr.left = some u
      · have hred : relink h u ur v = .ok (setA h pa { pr with left := v }) := by
          simp only [relink, hpp, hpa, if_pos hL]
        rw [hred]
        constructor
        · intro hc
          cases hc
        · rintro ⟨pa1, pr1, hpa1, hlk, hL1, _⟩
          injection hpa1 with e
          subst e
          rw [hpa] at hlk
          injection hlk with e2
          subst e2
          exact absurd hL hL1
      · by_cases hR : pr.right = some u
        · have hred : relink h u ur v = .ok (setA h pa { pr with right := v }) := by
            simp only [relink, hpp, hpa, if_neg hL, if_pos hR]
          rw [hred]
          constructor
          · intro hc
            cases hc
          · rintro ⟨pa1, pr1, hpa1, hlk, _, hR1⟩
            injection hpa1 with e
            subst e
            rw [hpa] at hlk
            injection hlk with e2
            subst e2
            exact absurd hR hR1
        · have hred : relink h u ur v = .error .assertionError := by
            simp only [relink, hpp, hpa, if_neg hL, if_neg hR]
          rw [hred]
          constructor
          · intro _
            exact ⟨pa, pr, rfl, hpa, hL, hR⟩
          · intro _
            rfl

theorem transplantH_assert_iff {α : Type} (h : Heap α) (u : Nat)
    (v : Option Nat) (ur : NodeRec α) (hu : lookupA h u = some ur) :
    transplantH h u v = .error .assertionError ↔
      ∃ pa pr, ur.parent = some pa ∧ lookupA h pa = some pr ∧
        pr.left ≠ some u ∧ pr.right ≠ some u := by
  rw [← relink_assert_iff h u ur v]
  cases hr : relink h u ur v with
  | error e =>
    have hred : transplantH h u v = .error e := by
      simp only [transplantH, hu, hr]
    rw [hred]
  | ok h1 =>
    constructor
    · intro hc
      exfalso
      cases v with
      | none =>
        have hred : transplantH h u none = .ok h1 := by
          simp only [transplantH, hu, hr]
        rw [hred] at hc
        cases hc
      | some va =>
        cases hva : lookupA h1 va with
        | none =>
          have hred : transplantH h u (some va) = .error .danglingRef := by
            simp only [transplantH, hu, hr, hva]
          rw [hred] at hc
          injection hc with hc
          cases hc
        | some vr =>
          have hred : transplantH h u (some va) =
              .ok (setA h1 va { vr with parent := ur.parent }) := by
            simp only [transplantH, hu, hr, hva]
          rw [hred] at hc
          cases hc
    · intro hc
      exact Except.noConfusion hc

theorem transplantH_no_assert {α : Type} (h : Heap α) (u : Nat)
    (v : Option Nat) (ur : NodeRec α) (hok : parentLinkOk h = true)
    (hu : lookupA h u = some ur) :
    transplantH h u v ≠ .error .assertionError := by
  intro hcontra
  rw [transplantH_assert_iff h u v ur hu] at hcontra
  obtain ⟨pa, pr, hpa, hlk, hL, hR⟩ := hcontra
  obtain ⟨pr1, hlk1, hor⟩ := th_parentLink_of_ok hok hu hpa
  rw [hlk] at hlk1
  injection hlk1 with e
  subst e
  rcases hor with h1 | h1
  · exact hL h1
  · exact hR h1

end TransplantHeap

namespace SortedDict

/-! The claim theorems. -/

/-- C1: every tree reachable from the empty tree by any sequence of insert
and delete operations satisfies the BST property (every key in the left
subtree smaller, every key in the right subtree larger than the node's
key), has pairwise-distinct keys, and has correct parent links with the
root's parent absent; and a single insert or delete step preserves the BST
and parent-link invariant. -/
theorem claim1_bst_invariant {α : Type} :
    (∀ ops : List (Op α),
      BST (applyOps ops).root ∧ (applyOps ops).root.keysList.Nodup ∧
        ParentOk (applyOps ops).root none) ∧
    (∀ (t : Tree α) (op : Op α), BST t.root → ParentOk t.root none →
      BST (applyOp t op).root ∧ ParentOk (applyOp t op).root none) := by
  constructor
  · intro ops
    obtain ⟨hb, hp⟩ := applyOps_inv ops
    exact ⟨hb, bst_keys_nodup hb, hp⟩
  · intro t op hb hp
    exact applyOp_preserves_inv t op hb hp

theorem claim1_bst_invariant_witness :
    (BST (applyOps [Op.ins 2 (0 : Nat), Op.ins 1 1, Op.ins 3 2, Op.del 2]).root ∧
      (applyOps [Op.ins 2 (0 : Nat), Op.ins 1 1, Op.ins 3 2, Op.del 2]).root.keysList.Nodup ∧
      ParentOk (applyOps [Op.ins 2 (0 : Nat), Op.ins 1 1, Op.ins 3 2, Op.del 2]).root none) ∧
    (BST (Tree.mk (Node.node 5 (7 : Nat) none .nil .nil)).root ∧
      ParentOk (Tree.mk (Node.node 5 (7 : Nat) none .nil .nil)).root none ∧
      BST (applyOp (Tree.mk (Node.node 5 (7 : Nat) none .nil .nil)) (Op.del 5)).root ∧
      ParentOk (applyOp (Tree.mk (Node.node 5 (7 : Nat) none .nil .nil)) (Op.del 5)).root none) :=
  ⟨claim1_bst_invariant.1 [Op.ins 2 (0 : Nat), Op.ins 1 1, Op.ins 3 2, Op.del 2],
    by decide, by decide,
    (claim1_bst_invariant.2 (Tree.mk (Node.node 5 (7 : Nat) none .nil .nil))
      (Op.del 5) (by decide) (by decide)).1,
    (claim1_bst_invariant.2 (Tree.mk (Node.node 5 (7 : Nat) none .nil .nil))
      (Op.del 5) (by decide) (by decide)).2⟩

/-- C2: after any sequence of insert and delete operations, the `walk`
trace visits nodes in strictly ascending key order, and the adapter's
`keys()` (derived from `collect`, modelled from the spec) is the ascending
list of exactly the currently searchable keys. -/
theorem claim2_walk_keys_sorted {α : Type} (ops : List (Op α)) :
    List.Sorted (· < ·) ((walk (applyOps ops)).map Prod.fst) ∧
    keys (applyOps ops) = (walk (applyOps ops)).map Prod.fst ∧
    List.Sorted (· < ·) (keys (applyOps ops)) ∧
    (∀ k, k ∈ keys (applyOps ops) ↔ ∃ v, search (applyOps ops) k = .ok v) := by
  obtain ⟨hb, hp⟩ := applyOps_inv ops
  have hwalk : (walk (applyOps ops)).map Prod.fst = (applyOps ops).root.keysList := by
    rw [walk_eq_inorderPairs]
    rfl
  have hsorted := bst_keys_sorted hb
  refine ⟨by rw [hwalk]; exact hsorted, by rw [keys_eq_keysList, hwalk], ?_, ?_⟩
  · rw [keys_eq_keysList]
    exact hsorted
  · intro k
    rw [keys_eq_keysList]
    constructor
    · intro hm
      cases hv : lookup (applyOps ops).root k with
      | none => exact absurd hm ((lookup_eq_none_iff hb).mp hv)
      | some v =>
        refine ⟨v, ?_⟩
        rw [show applyOps ops = ⟨(applyOps ops).root⟩ from rfl, search_eq_lookup, hv]
    · rintro ⟨v, hs⟩
      rw [show applyOps ops = ⟨(applyOps ops).root⟩ from rfl, search_eq_lookup] at hs
      cases hv : lookup (applyOps ops).root k with
      | none => rw [hv] at hs; cases hs
      | some w => exact mem_keys_of_mem_pairs (lookup_some_mem_pairs hv)

/-- C3: for every finite sequence of (key, value) insertions into the empty
tree and every key occurring in it, `search` returns exactly the last value
written for that key. -/
theorem claim3_roundtrip_last_write {α : Type} (ps : List (Int × α)) (k : Int)
    (v : α) (h : lastValue ps k = some v) :
    search (buildFromList ps) k = .ok v := by
  have hstep := lookup_foldl_insert ps .nil k
  rw [show lookup (Node.nil : Node α) k = none from rfl] at hstep
  have hl : lookup (buildFromList ps).root k = some v := by
    rw [buildFromList]
    rw [hstep]
    exact h
  rw [show buildFromList ps = ⟨(buildFromList ps).root⟩ from rfl, search_eq_lookup, hl]

theorem claim3_roundtrip_witness :
    lastValue [((1 : Int), (10 : Nat)), (2, 20), (1, 30)] 1 = some 30 ∧
    search (buildFromList [((1 : Int), (10 : Nat)), (2, 20), (1, 30)]) 1 = .ok 30 :=
  ⟨by decide, claim3_roundtrip_last_write [((1 : Int), (10 : Nat)), (2, 20), (1, 30)]
    1 30 (by decide)⟩

/-- C4: deleting a key present in a BST succeeds; afterwards searching that
key fails with the key-not-found error, the number of keys is exactly one
less, and every other key still maps to its previous value. -/
theorem claim4_delete_removes_one {α : Type} (t : Tree α) (k : Int)
    (hb : BST t.root) (hm : k ∈ t.root.keysList) :
    ∃ t2, delete t k = .ok t2 ∧
      search t2 k = .error .keyNotFound ∧
      (keys t2).length + 1 = (keys t).length ∧
      ∀ k2, k2 ≠ k → search t2 k2 = search t k2 := by
  obtain ⟨root⟩ := t
  have hw : ∃ w, lookup root k = some w := by
    cases hv : lookup root k with
    | none => exact absurd hm ((lookup_eq_none_iff hb).mp hv)
    | some w => exact ⟨w, rfl⟩
  obtain ⟨w, hw⟩ := hw
  refine ⟨⟨deleteKey root k⟩, ?_, ?_, ?_, ?_⟩
  · rw [delete_eq_lookup, hw]
  · rw [search_eq_lookup, lookup_deleteKey_self hb k]
  · rw [keys_eq_keysList, keys_eq_keysList]
    rw [show (Tree.mk (deleteKey root k)).root = deleteKey root k from rfl]
    rw [show (Tree.mk root).root = root from rfl]
    rw [keysList_deleteKey k hb]
    exact length_filter_ne_of_mem (bst_keys_nodup hb) hm
  · intro k2 hk2
    rw [search_eq_lookup, search_eq_lookup, lookup_deleteKey_ne hb hk2]

theorem claim4_delete_witness :
    BST (Tree.mk (Node.node 2 (0 : Nat) none (Node.node 1 1 (some 2) .nil .nil)
      (Node.node 3 2 (some 2) .nil .nil))).root ∧
    (2 : Int) ∈ (Tree.mk (Node.node 2 (0 : Nat) none (Node.node 1 1 (some 2) .nil .nil)
      (Node.node 3 2 (some 2) .nil .nil))).root.keysList ∧
    (∃ t2, delete (Tree.mk (Node.node 2 (0 : Nat) none (Node.node 1 1 (some 2) .nil .nil)
        (Node.node 3 2 (some 2) .nil .nil))) 2 = .ok t2 ∧
      search t2 2 = .error .keyNotFound ∧
      (keys t2).length + 1 = (keys (Tree.mk (Node.node 2 (0 : Nat) none
        (Node.node 1 1 (some 2) .nil .nil) (Node.node 3 2 (some 2) .nil .nil)))).length ∧
      ∀ k2, k2 ≠ 2 → search t2 k2 = search (Tree.mk (Node.node 2 (0 : Nat) none
        (Node.node 1 1 (some 2) .nil .nil) (Node.node 3 2 (some 2) .nil .nil))) k2) :=
  ⟨by decide, by decide,
    claim4_delete_removes_one (Tree.mk (Node.node 2 (0 : Nat) none
      (Node.node 1 1 (some 2) .nil .nil) (Node.node 3 2 (some 2) .nil .nil))) 2
      (by decide) (by decide)⟩

/-- C5: searching or deleting a key not present in a BST (including in the
empty tree) fails with the key-not-found error and leaves the tree
completely unchanged. -/
theorem claim5_absent_key {α : Type} (t : Tree α) (k : Int)
    (hb : BST t.root) (hm : k ∉ t.root.keysList) :
    search t k = .error .keyNotFound ∧ delete t k = .error .keyNotFound ∧
      applyOp t (Op.del k) = t := by
  obtain ⟨root⟩ := t
  have hv : lookup root k = none := (lookup_eq_none_iff hb).mpr hm
  refine ⟨?_, ?_, ?_⟩
  · rw [search_eq_lookup, hv]
  · rw [delete_eq_lookup, hv]
  · simp [applyOp, delete_eq_lookup, hv]

theorem claim5_absent_witness :
    (BST (Tree.mk (Node.nil : Node Nat)).root ∧
      (0 : Int) ∉ (Tree.mk (Node.nil : Node Nat)).root.keysList ∧
      search (Tree.mk (Node.nil : Node Nat)) 0 = .error .keyNotFound ∧
      delete (Tree.mk (Node.nil : Node Nat)) 0 = .error .keyNotFound ∧
      applyOp (Tree.mk (Node.nil : Node Nat)) (Op.del 0) = Tree.mk Node.nil) ∧
    (BST (Tree.mk (Node.node 5 (7 : Nat) none .nil .nil)).root ∧
      (4 : Int) ∉ (Tree.mk (Node.node 5 (7 : Nat) none .nil .nil)).root.keysList ∧
      search (Tree.mk (Node.node 5 (7 : Nat) none .nil .nil)) 4 = .error .keyNotFound ∧
      delete (Tree.mk (Node.node 5 (7 : Nat) none .nil .nil)) 4 = .error .keyNotFound ∧
      applyOp (Tree.mk (Node.node 5 (7 : Nat) none .nil .nil)) (Op.del 4) =
        Tree.mk (Node.node 5 (7 : Nat) none .nil .nil)) := by
  constructor
  · refine ⟨by decide, by decide, ?_⟩
    exact claim5_absent_key (Tree.mk (Node.nil : Node Nat)) 0 (by decide) (by decide)
  · refine ⟨by decide, by decide, ?_⟩
    exact claim5_absent_key (Tree.mk (Node.node 5 (7 : Nat) none .nil .nil)) 4
      (by decide) (by decide)

/-- C6: `minimum` and `maximum` fail with the empty-tree error, a failure
kind distinct from key-not-found, exactly when the tree has no root; on a
nonempty BST they return the smallest, respectively largest, present key. -/
theorem claim6_minmax {α : Type} :
    (∀ t : Tree α, (minimum t = .error .emptyTree ↔ t.root = .nil) ∧
      (maximum t = .error .emptyTree ↔ t.root = .nil)) ∧
    Err.emptyTree ≠ Err.keyNotFound ∧
    (∀ t : Tree α, BST t.root → t.root ≠ .nil →
      (∃ m, minimum t = .ok m ∧ m ∈ keys t ∧ ∀ x ∈ keys t, m ≤ x) ∧
      (∃ m, maximum t = .ok m ∧ m ∈ keys t ∧ ∀ x ∈ keys t, x ≤ m)) := by
  refine ⟨fun t => ⟨minimum_eq_error_iff t, maximum_eq_error_iff t⟩,
    by simp, fun t hb hne => ⟨?_, ?_⟩⟩
  · obtain ⟨m, h1, h2, h3⟩ := minimum_ok_spec hb hne
    exact ⟨m, h1, h2, h3⟩
  · obtain ⟨m, h1, h2, h3⟩ := maximum_ok_spec hb hne
    exact ⟨m, h1, h2, h3⟩

theorem claim6_minmax_witness :
    BST (Tree.mk (Node.node 2 (0 : Nat) none (Node.node 1 1 (some 2) .nil .nil)
      (Node.node 3 2 (some 2) .nil .nil))).root ∧
    (Tree.mk (Node.node 2 (0 : Nat) none (Node.node 1 1 (some 2) .nil .nil)
      (Node.node 3 2 (some 2) .nil .nil))).root ≠ .nil ∧
    ((∃ m, minimum (Tree.mk (Node.node 2 (0 : Nat) none (Node.node 1 1 (some 2) .nil .nil)
        (Node.node 3 2 (some 2) .nil .nil))) = .ok m ∧
      m ∈ keys (Tree.mk (Node.node 2 (0 : Nat) none (Node.node 1 1 (some 2) .nil .nil)
        (Node.node 3 2 (some 2) .nil .nil))) ∧
      ∀ x ∈ keys (Tree.mk (Node.node 2 (0 : Nat) none (Node.node 1 1 (some 2) .nil .nil)
        (Node.node 3 2 (some 2) .nil .nil))), m ≤ x) ∧
     (∃ m, maximum (Tree.mk (Node.node 2 (0 : Nat) none (Node.node 1 1 (some 2) .nil .nil)
        (Node.node 3 2 (some 2) .nil .nil))) = .ok m ∧
      m ∈ keys (Tree.mk (Node.node 2 (0 : Nat) none (Node.node 1 1 (some 2) .nil .nil)
        (Node.node 3 2 (some 2) .nil .nil))) ∧
      ∀ x ∈ keys (Tree.mk (Node.node 2 (0 : Nat) none (Node.node 1 1 (some 2) .nil .nil)
        (Node.node 3 2 (some 2) .nil .nil))), x ≤ m)) :=
  ⟨by decide, by decide,
    claim6_minmax.2.2 (Tree.mk (Node.node 2 (0 : Nat) none
      (Node.node 1 1 (some 2) .nil .nil) (Node.node 3 2 (some 2) .nil .nil)))
      (by decide) (by decide)⟩

/-- C7: inserting a key already present twice (values v1 then v2) leaves
exactly one entry for that key, mapped to v2, creates no new node, and
keeps the total node count unchanged. -/
theorem claim7_overwrite {α : Type} (t : Tree α) (k : Int) (v1 v2 : α)
    (hb : BST t.root) (hm : k ∈ t.root.keysList) :
    keys (insert (insert t k v1) k v2) = keys t ∧
    search (insert (insert t k v1) k v2) k = .ok v2 ∧
    (insert (insert t k v1) k v2).root.size = t.root.size ∧
    (keys (insert (insert t k v1) k v2)).count k = 1 := by
  obtain ⟨root⟩ := t
  have hw : ∃ w, lookup root k = some w := by
    cases hv : lookup root k with
    | none => exact absurd hm ((lookup_eq_none_iff hb).mp hv)
    | some w => exact ⟨w, rfl⟩
  obtain ⟨w, hw⟩ := hw
  have h1 : lookup (insertGo root k v1 none) k = some v1 := by
    rw [lookup_insertGo]
    simp
  have hk1 : (insertGo root k v1 none).keysList = root.keysList :=
    keysList_insertGo_found v1 none hw
  have hk2 : (insertGo (insertGo root k v1 none) k v2 none).keysList =
      (insertGo root k v1 none).keysList :=
    keysList_insertGo_found v2 none h1
  have hkeys : (insertGo (insertGo root k v1 none) k v2 none).keysList =
      root.keysList := hk2.trans hk1
  refine ⟨?_, ?_, ?_, ?_⟩
  · rw [keys_eq_keysList, keys_eq_keysList]
    exact hkeys
  · rw [show insert (insert ⟨root⟩ k v1) k v2 =
      (⟨insertGo (insertGo root k v1 none) k v2 none⟩ : Tree α) from rfl,
      search_eq_lookup, lookup_insertGo]
    simp
  · rw [show (insert (insert ⟨root⟩ k v1) k v2).root =
      insertGo (insertGo root k v1 none) k v2 none from rfl,
      size_eq_length_keysList, size_eq_length_keysList, hkeys]
  · rw [keys_eq_keysList]
    rw [show (insert (insert ⟨root⟩ k v1) k v2).root =
      insertGo (insertGo root k v1 none) k v2 none from rfl, hkeys]
    exact List.count_eq_one_of_mem (bst_keys_nodup hb) hm

theorem claim7_overwrite_witness :
    BST (Tree.mk (Node.node 1 (5 : Nat) none .nil .nil)).root ∧
    (1 : Int) ∈ (Tree.mk (Node.node 1 (5 : Nat) none .nil .nil)).root.keysList ∧
    (keys (insert (insert (Tree.mk (Node.node 1 (5 : Nat) none .nil .nil)) 1 8) 1 9) =
        keys (Tree.mk (Node.node 1 (5 : Nat) none .nil .nil)) ∧
      search (insert (insert (Tree.mk (Node.node 1 (5 : Nat) none .nil .nil)) 1 8) 1 9) 1 = .ok 9 ∧
      (insert (insert (Tree.mk (Node.node 1 (5 : Nat) none .nil .nil)) 1 8) 1 9).root.size =
        (Tree.mk (Node.node 1 (5 : Nat) none .nil .nil)).root.size ∧
      (keys (insert (insert (Tree.mk (Node.node 1 (5 : Nat) none .nil .nil)) 1 8) 1 9)).count 1 = 1) :=
  ⟨by decide, by decide,
    claim7_overwrite (Tree.mk (Node.node 1 (5 : Nat) none .nil .nil)) 1 8 9
      (by decide) (by decide)⟩

/-- C8: insert never fails and always terminates: the descent loop, given
fuel one more than the number of nodes (it strictly descends, consuming at
most one unit per node), completes with the same result as the recursive
insertion, for every tree, key and value; at the tree level insert is the
total function linking or overwriting the node. -/
theorem claim8_insert_total {α : Type} (t : Tree α) (k : Int) (v : α) :
    insertFuel (t.root.size + 1) t.root k v none = some (insertGo t.root k v none) ∧
    insert t k v = ⟨insertGo t.root k v none⟩ :=
  ⟨insertFuel_sufficient t.root k v none (by omega), rfl⟩

end SortedDict

namespace TransplantHeap

/-- C9: `_transplant(tree, u, v)` raises its fatal `AssertionError` (the
`assertionError` outcome, distinct from the user-facing `SortedDict.Err`
kinds) exactly when `u` has a parent of which `u` is neither the left nor
the right child; and whenever the heap satisfies the parent-link invariant,
this branch is unreachable. -/
theorem claim9_transplant_assert {α : Type} :
    (∀ (h : Heap α) (u : Nat) (v : Option Nat) (ur : NodeRec α),
      lookupA h u = some ur →
      (transplantH h u v = .error .assertionError ↔
        ∃ pa pr, ur.parent = some pa ∧ lookupA h pa = some pr ∧
          pr.left ≠ some u ∧ pr.right ≠ some u)) ∧
    (∀ (h : Heap α) (u : Nat) (v : Option Nat) (ur : NodeRec α),
      parentLinkOk h = true → lookupA h u = some ur →
      transplantH h u v ≠ .error .assertionError) :=
  ⟨fun h u v ur hu => transplantH_assert_iff h u v ur hu,
   fun h u v ur hok hu => transplantH_no_assert h u v ur hok hu⟩

theorem claim9_transplant_witness :
    (lookupA (Heap.mk (some 0) [(0, NodeRec.mk 10 (0 : Nat) none none none),
        (1, NodeRec.mk 5 0 (some 0) none none)]) 1 =
      some (NodeRec.mk 5 0 (some 0) none none)) ∧
    transplantH (Heap.mk (some 0) [(0, NodeRec.mk 10 (0 : Nat) none none none),
        (1, NodeRec.mk 5 0 (some 0) none none)]) 1 none = .error .assertionError ∧
    parentLinkOk (Heap.mk (some 0) [(0, NodeRec.mk 10 (0 : Nat) none (some 1) none),
        (1, NodeRec.mk 5 0 (some 0) none none)]) = true ∧
    (lookupA (Heap.mk (some 0) [(0, NodeRec.mk 10 (0 : Nat) none (some 1) none),
        (1, NodeRec.mk 5 0 (some 0) none none)]) 1 =
      some (NodeRec.mk 5 0 (some 0) none none)) ∧
    transplantH (Heap.mk (some 0) [(0, NodeRec.mk 10 (0 : Nat) none (some 1) none),
        (1, NodeRec.mk 5 0 (some 0) none none)]) 1 none ≠ .error .assertionError :=
  ⟨by decide,
    (claim9_transplant_assert.1 (Heap.mk (some 0)
        [(0, NodeRec.mk 10 (0 : Nat) none none none),
         (1, NodeRec.mk 5 0 (some 0) none none)]) 1 none
        (NodeRec.mk 5 0 (some 0) none none) (by decide)).mpr
      ⟨0, NodeRec.mk 10 (0 : Nat) none none none, by decide, by decide,
        by decide, by decide⟩,
    by decide, by decide,
    claim9_transplant_assert.2 (Heap.mk (some 0)
        [(0, NodeRec.mk 10 (0 : Nat) none (some 1) none),
         (1, NodeRec.mk 5 0 (some 0) none none)]) 1 none
      (NodeRec.mk 5 0 (some 0) none none) (by decide) (by decide)⟩

end TransplantHeap

/-- C10: the two tree engines (`src/dict_tree/tree.py` and
`src/sorted_dict/tree.py`) are behaviorally equivalent: any sequence of
insert, search and delete operations applied to both from the empty tree
yields identical tree shapes (under the field-for-field translation) and
identical search and delete results, errors included. -/
theorem claim10_engines_equivalent {α : Type} (ops : List (SortedDict.Op α)) :
    DictTree.toSortedTree (DictTree.applyOps ops) = SortedDict.applyOps ops ∧
    (∀ k, DictTree.search (DictTree.applyOps ops) k =
      SortedDict.search (SortedDict.applyOps ops) k) ∧
    (∀ k, (DictTree.delete (DictTree.applyOps ops) k).map DictTree.toSortedTree =
      SortedDict.delete (SortedDict.applyOps ops) k) := by
  refine ⟨DictTree.dt_applyOps ops, fun k => ?_, fun k => ?_⟩
  · rw [DictTree.dt_search, DictTree.dt_applyOps]
  · rw [DictTree.dt_delete, DictTree.dt_applyOps]

namespace SortedDict

theorem claim2_walk_keys_witness :
    List.Sorted (· < ·)
      ((walk (applyOps [Op.ins 2 (0 : Nat), Op.ins 1 1, Op.del 2])).map Prod.fst) ∧
    keys (applyOps [Op.ins 2 (0 : Nat), Op.ins 1 1, Op.del 2]) =
      (walk (applyOps [Op.ins 2 (0 : Nat), Op.ins 1 1, Op.del 2])).map Prod.fst ∧
    List.Sorted (· < ·) (keys (applyOps [Op.ins 2 (0 : Nat), Op.ins 1 1, Op.del 2])) ∧
    (∀ k, k ∈ keys (applyOps [Op.ins 2 (0 : Nat), Op.ins 1 1, Op.del 2]) ↔
      ∃ v, search (applyOps [Op.ins 2 (0 : Nat), Op.ins 1 1, Op.del 2]) k = .ok v) :=
  claim2_walk_keys_sorted [Op.ins 2 (0 : Nat), Op.ins 1 1, Op.del 2]

theorem claim8_insert_witness :
    insertFuel ((Tree.mk (Node.node 4 (0 : Nat) none .nil .nil)).root.size + 1)
        (Tree.mk (Node.node 4 (0 : Nat) none .nil .nil)).root 7 1 none =
      some (insertGo (Tree.mk (Node.node 4 (0 : Nat) none .nil .nil)).root 7 1 none) ∧
    insert (Tree.mk (Node.node 4 (0 : Nat) none .nil .nil)) 7 1 =
      ⟨insertGo (Tree.mk (Node.node 4 (0 : Nat) none .nil .nil)).root 7 1 none⟩ :=
  claim8_insert_total (Tree.mk (Node.node 4 (0 : Nat) none .nil .nil)) 7 1

end SortedDict

theorem claim10_engines_witness :
    DictTree.toSortedTree
        (DictTree.applyOps [SortedDict.Op.ins 1 (0 : Nat), SortedDict.Op.del 1]) =
      SortedDict.applyOps [SortedDict.Op.ins 1 (0 : Nat), SortedDict.Op.del 1] ∧
    (∀ k, DictTree.search
        (DictTree.applyOps [SortedDict.Op.ins 1 (0 : Nat), SortedDict.Op.del 1]) k =
      SortedDict.search
        (SortedDict.applyOps [SortedDict.Op.ins 1 (0 : Nat), SortedDict.Op.del 1]) k) ∧
    (∀ k, (DictTree.delete
        (DictTree.applyOps [SortedDict.Op.ins 1 (0 : Nat), SortedDict.Op.del 1]) k).map
          DictTree.toSortedTree =
      SortedDict.delete
        (SortedDict.applyOps [SortedDict.Op.ins 1 (0 : Nat), SortedDict.Op.del 1]) k) :=
  claim10_engines_equivalent [SortedDict.Op.ins 1 (0 : Nat), SortedDict.Op.del 1]
